import Mathlib

/-!
# Decompression core of `Spring/src/decompress.cpp`

A shallow embedding of the decoder side of the read archive:

* the noise substitution table filled by `set_dec_noise_array`;
* the 2-bit reference unpacker of `decompress_unpack_seq`;
* the per-record reconstruction loop of `decompress_short`
  (position decoding, noise application, orientation, mate 2);
* the step loop shared by `decompress_short` and `decompress_long`
  (worker slices, head and tail trimming of the requested range).

Streams are modelled as the unread remainder of the file: binary files are
lists of bytes (`Nat`, taken modulo 256 when read), text files are lists of
characters.  Fixed-width unsigned arithmetic is written with explicit `%`.
-/

namespace Spring

/-! ## Fixed-width arithmetic -/

/-- Truncation to `uint16_t`. -/
def u16 (x : Nat) : Nat := x % 65536

/-- Truncation to `uint32_t`. -/
def u32 (x : Nat) : Nat := x % 4294967296

/-- Truncation to `uint64_t`. -/
def u64 (x : Nat) : Nat := x % 18446744073709551616

/-- Subtraction of two `uint32_t` values, wrapping around. -/
def sub_u32 (a b : Nat) : Nat := (u32 a + 4294967296 - u32 b) % 4294967296

/-- Value of a `uint16_t` bit pattern reinterpreted as `int16_t`. -/
def to_i16 (v : Nat) : Int := if u16 v < 32768 then (u16 v : Int) else (u16 v : Int) - 65536

/-- Addition `uint64_t + int16_t`: the signed operand is converted to
`uint64_t` and the sum wraps modulo `2^64`. -/
def add_u64_i16 (a : Nat) (d : Int) : Nat := (((a : Int) + d) % 18446744073709551616).toNat

/-! ## Ways in which the decoder fails to produce a value -/

/-- What can go wrong while the embedded code runs. -/
inductive Fault where
  /-- `std::out_of_range` thrown by `std::string::substr`. -/
  | out_of_range
  /-- A stream delivered fewer bytes than requested; the source does not test
  the stream state, so what follows is outside this model. -/
  | short_read
  /-- Indexing a string outside its contents, or using a table cell that was
  never assigned. -/
  | undefined
  /-- A loop whose 16-bit counter can never reach its bound. -/
  | diverges
  deriving DecidableEq, Repr

/-! ## Stream primitives -/

/-- Little-endian value of a list of bytes. -/
def le_value : List Nat → Nat
  | [] => 0
  | b :: bs => b % 256 + 256 * le_value bs

/-- The `n` little-endian bytes of `v`. -/
def le_bytes : Nat → Nat → List Nat
  | 0, _ => []
  | n + 1, v => v % 256 :: le_bytes n (v / 256)

/-- Embedding of `f.read(buf, n)` on a binary stream. -/
def read_bytes (n : Nat) (s : List Nat) : Except Fault (List Nat × List Nat) :=
  if s.length < n then .error .short_read else .ok (s.take n, s.drop n)

/-- Embedding of `f.read((char *)&x, sizeof(uint16_t))`. -/
def read_u16 (s : List Nat) : Except Fault (Nat × List Nat) :=
  match read_bytes 2 s with
  | .ok (bs, rest) => .ok (le_value bs, rest)
  | .error e => .error e

/-- Embedding of `f.read((char *)&x, sizeof(uint64_t))`. -/
def read_u64 (s : List Nat) : Except Fault (Nat × List Nat) :=
  match read_bytes 8 s with
  | .ok (bs, rest) => .ok (le_value bs, rest)
  | .error e => .error e

/-- Embedding of `f.read(&str[0], n)` on the unaligned stream. -/
def read_chars (n : Nat) (s : List Char) : Except Fault (List Char × List Char) :=
  if s.length < n then .error .short_read else .ok (s.take n, s.drop n)

/-- Whitespace skipped by formatted extraction. -/
def is_space (c : Char) : Bool :=
  c = ' ' || c = '\t' || c = '\n' || c.toNat = 11 || c.toNat = 12 || c = '\r'

/-- Embedding of `f >> c` for a `char`: skips whitespace, then takes one
character. -/
def extract_char : List Char → Except Fault (Char × List Char)
  | [] => .error .short_read
  | c :: cs => if is_space c then extract_char cs else .ok (c, cs)

/-- Embedding of `std::getline(f, line)` into a fresh string: the characters up
to the next newline, which is consumed; at end of file the line is empty. -/
def getline : List Char → List Char × List Char
  | [] => ([], [])
  | c :: cs => if c = '\n' then ([], cs) else ((getline cs).1.cons c, (getline cs).2)

/-! ## Noise substitution table -/

/-- The table `char **dec_noise`: a cell is `none` until it is assigned. -/
abbrev NoiseTable := Char → Char → Option Char

/-- The freshly allocated table, no cell assigned. -/
def NoiseTable.fresh : NoiseTable := fun _ _ => none

/-- Assignment `t[b][c] = v`. -/
def NoiseTable.assign (t : NoiseTable) (b c v : Char) : NoiseTable :=
  fun b1 c1 => if b1 = b ∧ c1 = c then some v else t b1 c1

/-- Embedding of `set_dec_noise_array`. -/
def set_dec_noise_array (dec_noise : NoiseTable) : NoiseTable :=
  let t := dec_noise.assign 'A' '0' 'C'
  let t := t.assign 'A' '1' 'G'
  let t := t.assign 'A' '2' 'T'
  let t := t.assign 'A' '3' 'N'
  let t := t.assign 'C' '0' 'A'
  let t := t.assign 'C' '1' 'G'
  let t := t.assign 'C' '2' 'T'
  let t := t.assign 'C' '3' 'N'
  let t := t.assign 'G' '0' 'T'
  let t := t.assign 'G' '1' 'A'
  let t := t.assign 'G' '2' 'C'
  let t := t.assign 'G' '3' 'N'
  let t := t.assign 'T' '0' 'G'
  let t := t.assign 'T' '1' 'C'
  let t := t.assign 'T' '2' 'A'
  let t := t.assign 'T' '3' 'N'
  let t := t.assign 'N' '0' 'A'
  let t := t.assign 'N' '1' 'G'
  let t := t.assign 'N' '2' 'C'
  let t := t.assign 'N' '3' 'T'
  t

/-- The table used by `decompress_short`. -/
def dec_noise : NoiseTable := set_dec_noise_array NoiseTable.fresh

/-- A row of the table of the specification, section 6: the bases that the
codes `'0'`, `'1'`, `'2'`, `'3'` stand for. -/
def spec_noise_row (b : Char) : Option (List Char) :=
  if b = 'A' then some ['C', 'G', 'T', 'N']
  else if b = 'C' then some ['A', 'G', 'T', 'N']
  else if b = 'G' then some ['T', 'A', 'C', 'N']
  else if b = 'T' then some ['G', 'C', 'A', 'N']
  else if b = 'N' then some ['A', 'G', 'C', 'T']
  else none

/-- The column of a noise code. -/
def spec_noise_column (c : Char) : Option Nat :=
  if c = '0' then some 0
  else if c = '1' then some 1
  else if c = '2' then some 2
  else if c = '3' then some 3
  else none

/-- The table `N` of the specification, section 6. -/
def spec_noise_table (b c : Char) : Option Char :=
  match spec_noise_row b, spec_noise_column c with
  | some row, some k => row[k]?
  | _, _ => none

/-- Reference bases that key the table. -/
def ref_bases : List Char := ['A', 'C', 'G', 'T', 'N']

/-- Noise codes that key the table. -/
def noise_codes : List Char := ['0', '1', '2', '3']

/-! ## Reference unpacker (`decompress_unpack_seq`) -/

/-- The array `inttobase`, indexed by a value below four. -/
def inttobase (i : Nat) : Char :=
  match i with
  | 0 => 'A'
  | 1 => 'C'
  | 2 => 'G'
  | _ => 'T'

/-- The four characters written for one byte `dnabin`. -/
def unpack_byte (dnabin : Nat) : List Char :=
  let c0 := inttobase (dnabin % 4)
  let dnabin := dnabin / 4
  let c1 := inttobase (dnabin % 4)
  let dnabin := dnabin / 4
  let c2 := inttobase (dnabin % 4)
  let dnabin := dnabin / 4
  let c3 := inttobase (dnabin % 4)
  [c0, c1, c2, c3]

/-- The `while (!in_seq.eof())` loop over the packed payload. -/
def unpack_loop : List Nat → List Char
  | [] => []
  | b :: rest => unpack_byte (b % 256) ++ unpack_loop rest

/-- Contents of the shard file written for one shard: the unpacked payload
followed by the plain-text tail. -/
def unpack_shard (payload : List Nat) (tail : List Char) : List Char :=
  unpack_loop payload ++ tail

/-! ## Per-record reconstruction (`decompress_short`, the loop over `i`) -/

/-- Modelled from the spec: the complement of one base, used by
`reverse_complement`, which is defined outside the sources at hand.  Following
the glossary, `A` and `T` swap, `C` and `G` swap and `N` stays; the glossary
says nothing about other characters, which are left as they are. -/
def complement (c : Char) : Char :=
  if c = 'A' then 'T'
  else if c = 'T' then 'A'
  else if c = 'C' then 'G'
  else if c = 'G' then 'C'
  else c

/-- Modelled from the spec: `reverse_complement` is declared in `util.h` and
defined outside the sources at hand.  Following the glossary, the string is
reversed and then every base is complemented.  The second argument is the read
length passed by the caller. -/
def reverse_complement (s : List Char) (_readlen : Nat) : List Char :=
  s.reverse.map complement

/-- The nine input streams of a block together with the variables that
`decompress_short` declares before the loop over the records of the block.
`pos_1`, `pos_2`, `prevpos`, `RC_1` and `RC_2` are indeterminate until they
are first assigned; the code never reads them before that. -/
structure BlockVars where
  f_flag : List Char
  f_noise : List Char
  f_noisepos : List Nat
  f_pos : List Nat
  f_RC : List Char
  f_unaligned : List Char
  f_readlength : List Nat
  f_pos_pair : List Nat
  f_RC_pair : List Char
  pos_1 : Nat
  pos_2 : Nat
  prevpos : Nat
  RC_1 : Char
  RC_2 : Char
  first_read_of_block : Bool
  deriving DecidableEq, Repr

/-- What one loop iteration stores in the step arrays at index `i`; the
mate-2 cells are written only for paired-end data. -/
structure RecordOut where
  flag : Char
  read_lengths_array_1 : Nat
  read_array_1 : List Char
  read_lengths_array_2 : Option Nat
  read_array_2 : Option (List Char)
  deriving DecidableEq, Repr

/-- Embedding of `seq.substr(pos, len)`: throws when `pos` lies beyond the end
of `seq`, otherwise returns at most `len` characters. -/
def substr (seq : List Char) (pos len : Nat) : Except Fault (List Char) :=
  if pos > seq.length then .error .out_of_range else .ok ((seq.drop pos).take len)

/-- Position of mate 1 (lines 298-315). -/
def decode_pos_1 (preserve_order : Bool) (v : BlockVars) : Except Fault BlockVars :=
  if preserve_order then
    match read_u64 v.f_pos with
    | .error e => .error e
    | .ok (p, rest) => .ok { v with pos_1 := p, f_pos := rest }
  else if v.first_read_of_block then
    match read_u64 v.f_pos with
    | .error e => .error e
    | .ok (p, rest) =>
      .ok { v with first_read_of_block := false, pos_1 := p, prevpos := p, f_pos := rest }
  else
    match read_u16 v.f_pos with
    | .error e => .error e
    | .ok (diffpos_16, rest) =>
      if diffpos_16 = 65535 then
        match read_u64 rest with
        | .error e => .error e
        | .ok (p, rest2) => .ok { v with pos_1 := p, prevpos := p, f_pos := rest2 }
      else
        .ok { v with pos_1 := u64 (v.prevpos + diffpos_16),
                     prevpos := u64 (v.prevpos + diffpos_16), f_pos := rest }

/-- The loop `for (uint16_t k = 0; k < noise.size(); k++)` once it is known
to terminate: the remaining noise codes, `prevnoisepos`, the read under
construction and the noise-position stream. -/
def noise_loop (t : NoiseTable) :
    List Char → Nat → List Char → List Nat → Except Fault (List Char × List Nat)
  | [], _, read, f_noisepos => .ok (read, f_noisepos)
  | c :: noise, prevnoisepos, read, f_noisepos =>
    match read_u16 f_noisepos with
    | .error e => .error e
    | .ok (np, rest) =>
      let noisepos := u16 (np + prevnoisepos)
      match read[noisepos]? with
      | none => .error .undefined
      | some r =>
        match t r c with
        | none => .error .undefined
        | some b => noise_loop t noise noisepos (read.set noisepos b) rest

/-- Reconstruction of one aligned mate from the reference (lines 317-332 for
mate 1, 359-374 for mate 2): window, noise, orientation.  The counter `k` is a
`uint16_t`, so a noise line of 65536 or more codes never leaves the loop. -/
def reconstruct (t : NoiseTable) (seq : List Char) (pos len : Nat) (RC : Char)
    (f_noise : List Char) (f_noisepos : List Nat) :
    Except Fault (List Char × List Char × List Nat) :=
  match substr seq pos len with
  | .error e => .error e
  | .ok read =>
    let noise := (getline f_noise).1
    if 65536 ≤ noise.length then .error .diverges
    else
      match noise_loop t noise 0 read f_noisepos with
      | .error e => .error e
      | .ok (read, rest) =>
        .ok (if RC = 'd' then read else reverse_complement read len, (getline f_noise).2, rest)

/-- Mate 1 of a record (lines 296-336). -/
def decode_mate_1 (t : NoiseTable) (seq : List Char) (preserve_order : Bool)
    (flag : Char) (len : Nat) (v : BlockVars) : Except Fault (List Char × BlockVars) :=
  let singleton_1 := flag = '2' || flag = '4'
  if !singleton_1 then
    match decode_pos_1 preserve_order v with
    | .error e => .error e
    | .ok v =>
      match extract_char v.f_RC with
      | .error e => .error e
      | .ok (rc, rest) =>
        let v := { v with RC_1 := rc, f_RC := rest }
        match reconstruct t seq v.pos_1 len v.RC_1 v.f_noise v.f_noisepos with
        | .error e => .error e
        | .ok (read, f_noise, f_noisepos) =>
          .ok (read, { v with f_noise := f_noise, f_noisepos := f_noisepos })
  else
    match read_chars len v.f_unaligned with
    | .error e => .error e
    | .ok (read, rest) => .ok (read, { v with f_unaligned := rest })

/-- Position and orientation of an aligned mate 2 (lines 344-358). -/
def decode_pos_2 (flag : Char) (v : BlockVars) : Except Fault BlockVars :=
  if flag = '1' || flag = '4' then
    match read_u64 v.f_pos with
    | .error e => .error e
    | .ok (p, rest) =>
      match extract_char v.f_RC with
      | .error e => .error e
      | .ok (rc, rest_RC) => .ok { v with pos_2 := p, f_pos := rest, RC_2 := rc, f_RC := rest_RC }
  else
    match read_u16 v.f_pos_pair with
    | .error e => .error e
    | .ok (bits, rest) =>
      let pos_pair_16 := to_i16 bits
      match extract_char v.f_RC_pair with
      | .error e => .error e
      | .ok (RC_relative, rest_RC) =>
        let RC_2 :=
          if RC_relative = '0' then (if v.RC_1 = 'd' then 'r' else 'd')
          else (if v.RC_1 = 'd' then 'd' else 'r')
        .ok { v with pos_2 := add_u64_i16 v.pos_1 pos_pair_16, f_pos_pair := rest,
                     RC_2 := RC_2, f_RC_pair := rest_RC }

/-- Mate 2 of a paired-end record (lines 340-379), after its length was read. -/
def decode_mate_2 (t : NoiseTable) (seq : List Char)
    (flag : Char) (len : Nat) (v : BlockVars) : Except Fault (List Char × BlockVars) :=
  let singleton_2 := flag = '2' || flag = '3'
  if !singleton_2 then
    match decode_pos_2 flag v with
    | .error e => .error e
    | .ok v =>
      match reconstruct t seq v.pos_2 len v.RC_2 v.f_noise v.f_noisepos with
      | .error e => .error e
      | .ok (read, f_noise, f_noisepos) =>
        .ok (read, { v with f_noise := f_noise, f_noisepos := f_noisepos })
  else
    match read_chars len v.f_unaligned with
    | .error e => .error e
    | .ok (read, rest) => .ok (read, { v with f_unaligned := rest })

/-- One iteration of the loop over the records of a block (lines 293-380). -/
def decode_record (t : NoiseTable) (seq : List Char) (paired_end preserve_order : Bool)
    (v : BlockVars) : Except Fault (RecordOut × BlockVars) :=
  match extract_char v.f_flag with
  | .error e => .error e
  | .ok (flag, rest_flag) =>
    match read_u16 v.f_readlength with
    | .error e => .error e
    | .ok (rl, rest_len) =>
      let v := { v with f_flag := rest_flag, f_readlength := rest_len }
      match decode_mate_1 t seq preserve_order flag rl v with
      | .error e => .error e
      | .ok (read_1, v) =>
        if paired_end then
          match read_u16 v.f_readlength with
          | .error e => .error e
          | .ok (rl2, rest_len2) =>
            let v := { v with f_readlength := rest_len2 }
            match decode_mate_2 t seq flag rl2 v with
            | .error e => .error e
            | .ok (read_2, v) => .ok (⟨flag, rl, read_1, some rl2, some read_2⟩, v)
        else .ok (⟨flag, rl, read_1, none, none⟩, v)

/-- The loop over `n` records of a block. -/
def decode_block (t : NoiseTable) (seq : List Char) (paired_end preserve_order : Bool) :
    Nat → BlockVars → Except Fault (List RecordOut × BlockVars)
  | 0, v => .ok ([], v)
  | n + 1, v =>
    match decode_record t seq paired_end preserve_order v with
    | .error e => .error e
    | .ok (r, v) =>
      match decode_block t seq paired_end preserve_order n v with
      | .error e => .error e
      | .ok (rs, v) => .ok (r :: rs, v)

/-- The state in which a worker enters the loop: all streams at their start;
the indeterminate variables are given placeholder values. -/
def open_block (f_flag f_noise : List Char) (f_noisepos f_pos : List Nat)
    (f_RC f_unaligned : List Char) (f_readlength f_pos_pair : List Nat)
    (f_RC_pair : List Char) : BlockVars :=
  { f_flag := f_flag, f_noise := f_noise, f_noisepos := f_noisepos, f_pos := f_pos,
    f_RC := f_RC, f_unaligned := f_unaligned, f_readlength := f_readlength,
    f_pos_pair := f_pos_pair, f_RC_pair := f_RC_pair,
    pos_1 := 0, pos_2 := 0, prevpos := 0, RC_1 := 'd', RC_2 := 'd',
    first_read_of_block := true }

/-- The mate-1 reads a block decode stored, when it ran to completion. -/
def reads_1 (r : Except Fault (List RecordOut × BlockVars)) : Option (List (List Char)) :=
  match r with
  | .ok (rs, _) => some (rs.map (fun x => x.read_array_1))
  | .error _ => none

/-! ## Step loop (`decompress_short` lines 101-108 and 144-476, `decompress_long`
lines 535-542 and 552-659)

Both functions run the same loop; they differ in what a worker does with its
block.  A decoded record is identified here by its block number and its index
inside the block, the same for both mates. -/

/-- The parameters the step loop depends on.  `num_reads` and
`num_reads_per_block` are `uint32_t`, `num_thr` is an `int`, `start_num` and
`end_num` are `uint64_t`. -/
structure Params where
  num_reads : Nat
  num_reads_per_block : Nat
  paired_end : Bool
  num_thr : Nat
  start_num : Nat
  end_num : Nat
  deriving DecidableEq, Repr

/-- A decoded record: the block it was decoded from and its index there. -/
structure Rec where
  block : Nat
  index : Nat
  deriving DecidableEq, Repr

/-- One call of `write_fastq_block` for mate `mate`: the step array as it is at
the call, the offset added to the array pointers and the number of records. -/
structure WriteCall where
  mate : Nat
  array : Nat → Option Rec
  shift : Nat
  count : Nat

/-- The records a call hands over: cells `shift`, ..., `shift + count - 1` of
the array; a cell no worker has filled reads as `none`. -/
def WriteCall.records (w : WriteCall) : List (Option Rec) :=
  (List.range w.count).map (fun k => w.array (w.shift + k))

/-- The variables of the `while (!done)` loop, the step array of decoded reads
and the calls of `write_fastq_block` made so far. -/
structure StepState where
  done : Bool
  num_blocks_done : Nat
  num_reads_done : Nat
  read_array : Nat → Option Rec
  written : List WriteCall

/-- The value of `num_reads_per_step` (lines 101-108).  The product of an `int`
and a `uint32_t` in 64 bits cannot wrap. -/
def num_reads_per_step (p : Params) : Nat :=
  let s := p.num_thr * p.num_reads_per_block
  if p.paired_end then (if s > p.num_reads / 2 then p.num_reads / 2 else s)
  else (if s > p.num_reads then p.num_reads else s)

/-- The value of `num_reads_cur_step` (lines 150-159); the sum is a `uint32_t`. -/
def num_reads_cur_step (p : Params) (num_reads_done : Nat) : Nat :=
  let cur := u32 (num_reads_per_step p)
  if p.paired_end then
    if u32 (num_reads_done + cur) ≥ p.num_reads / 2 then sub_u32 (p.num_reads / 2) num_reads_done
    else cur
  else
    if u32 (num_reads_done + cur) ≥ p.num_reads then sub_u32 p.num_reads num_reads_done
    else cur

/-- The value of `num_reads_thr` for worker `tid` (lines 167-169). -/
def num_reads_thr (p : Params) (cur tid : Nat) : Nat :=
  u32 (min cur ((tid + 1) * p.num_reads_per_block) - tid * p.num_reads_per_block)

/-- What worker `tid` does to the step array when `j = 0`: it decodes block
`num_blocks_done + tid` into cells `tid * B`, ..., `tid * B + num_reads_thr - 1`. -/
def worker (p : Params) (num_blocks_done cur tid : Nat) (arr : Nat → Option Rec) :
    Nat → Option Rec :=
  if tid * p.num_reads_per_block < cur then
    let block_num := u32 (num_blocks_done + tid)
    fun i =>
      if tid * p.num_reads_per_block ≤ i ∧
          i < tid * p.num_reads_per_block + num_reads_thr p cur tid then
        some ⟨block_num, i - tid * p.num_reads_per_block⟩
      else arr i
  else arr

/-- The parallel region for `j = 0`: every thread of the team runs `worker`. -/
def parallel_region (p : Params) (num_blocks_done cur : Nat) (arr : Nat → Option Rec) :
    Nat → Option Rec :=
  (List.range p.num_thr).foldl (fun a tid => worker p num_blocks_done cur tid a) arr

/-- Whether the tail trim applies (line 456); the sum is a `uint32_t`, the
comparison with `end_num` is made in 64 bits. -/
def tail_hit (p : Params) (num_reads_done cur : Nat) : Bool :=
  decide (u32 (num_reads_done + cur) ≥ p.end_num)

/-- The value of `num_reads_cur_step_output` (lines 455-459): the difference
is computed in 64 bits and stored in a `uint32_t`. -/
def num_reads_cur_step_output (p : Params) (num_reads_done cur : Nat) : Nat :=
  if tail_hit p num_reads_done cur then
    u32 (u64 (p.end_num + 18446744073709551616 - num_reads_done))
  else cur

/-- The call of `write_fastq_block` (lines 461-472): in the first step the
array pointers are advanced by `shift` and the count is reduced by it. -/
def write_call (p : Params) (num_blocks_done j : Nat) (arr : Nat → Option Rec) (out : Nat) :
    WriteCall :=
  if num_blocks_done = p.start_num / p.num_reads_per_block then
    let shift := u32 (p.start_num % p.num_reads_per_block)
    ⟨j, arr, shift, sub_u32 out shift⟩
  else ⟨j, arr, 0, out⟩

/-- The body of `for (int j = 0; j < 2; j++)` for one mate (lines 163-472):
the reads of both mates are decoded when `j = 0`; then the tail trim, the head
trim and the call of `write_fastq_block`. -/
def mate_pass (p : Params) (cur j : Nat) (s : StepState) : StepState :=
  let arr := if j = 0 then parallel_region p s.num_blocks_done cur s.read_array else s.read_array
  { s with
    done := s.done || tail_hit p s.num_reads_done cur
    read_array := arr
    written := s.written ++
      [write_call p s.num_blocks_done j arr (num_reads_cur_step_output p s.num_reads_done cur)] }

/-- One iteration of the `while` loop in which `num_reads_cur_step` is not 0. -/
def step_body (p : Params) (s : StepState) : StepState :=
  let cur := num_reads_cur_step p s.num_reads_done
  let s1 := mate_pass p cur 0 s
  let s2 := if p.paired_end then mate_pass p cur 1 s1 else s1
  { s2 with num_reads_done := u32 (s.num_reads_done + cur),
            num_blocks_done := u32 (s.num_blocks_done + p.num_thr) }

/-- The `while (!done)` loop, run for at most `fuel` tests of its condition;
the result is the list of `write_fastq_block` calls once the loop is left. -/
def step_loop (p : Params) : Nat → StepState → Option (List WriteCall)
  | 0, _ => none
  | fuel + 1, s =>
    if s.done then some s.written
    else if num_reads_cur_step p s.num_reads_done = 0 then some s.written
    else step_loop p fuel (step_body p s)

/-- The state in which the loop is entered (lines 144-148). -/
def initial_state (p : Params) : StepState :=
  { done := false
    num_blocks_done := u32 (p.start_num / p.num_reads_per_block)
    num_reads_done := u32 (u32 (p.start_num / p.num_reads_per_block) * p.num_reads_per_block)
    read_array := fun _ => none
    written := [] }

/-- All calls of `write_fastq_block` made by a decode. -/
def decompress_writes (p : Params) (fuel : Nat) : Option (List WriteCall) :=
  step_loop p fuel (initial_state p)

/-- The records handed to `write_fastq_block` for mate `j`, over all calls in
the order of the calls. -/
def records_of_mate (j : Nat) (calls : List WriteCall) : List (Option Rec) :=
  (calls.filter (fun w => w.mate = j)).flatMap WriteCall.records

/-- Number of records handed to `write_fastq_block` for mate `j`. -/
def count_of_mate (j : Nat) (calls : List WriteCall) : Nat :=
  ((calls.filter (fun w => w.mate = j)).map (fun w => w.count)).sum

/-- Number of records each mate has: the bound the loop compares with. -/
def records_per_mate (p : Params) : Nat :=
  if p.paired_end then p.num_reads / 2 else p.num_reads

/-- The record with global index `g` when blocks hold `B` records. -/
def rec_at (B g : Nat) : Rec := ⟨g / B, g % B⟩

/-- The records with global indices `g`, ..., `g + n - 1`. -/
def rec_range (B g n : Nat) : List (Option Rec) :=
  (List.range' g n).map (fun x => some (rec_at B x))

/-- The number of leading cells the next call of `write_fastq_block` skips:
`start_num % B` while the loop is in its first step, nothing afterwards. -/
def head_shift (p : Params) (s : StepState) : Nat :=
  if s.num_blocks_done = p.start_num / p.num_reads_per_block then
    p.start_num % p.num_reads_per_block
  else 0

/-! ## Reference statements, written from the specification -/

/-- The base written for a 2-bit value: `0→A, 1→C, 2→G, 3→T`. -/
def spec_base (x : Nat) : Char :=
  if x = 0 then 'A' else if x = 1 then 'C' else if x = 2 then 'G' else 'T'

/-- The noise sites of a noise line: running sums of the deltas in 16 bits,
starting from `prev`. -/
def spec_sites : Nat → List Nat → List Nat
  | _, [] => []
  | prev, d :: ds => u16 (prev + d) :: spec_sites (u16 (prev + d)) ds

/-- One substitution `read[s] := N[read[s]][c]` with the table of the
specification; nothing changes where the table has no entry. -/
def spec_substitute (read : List Char) (s : Nat) (c : Char) : List Char :=
  match read[s]? with
  | none => read
  | some r =>
    match spec_noise_table r c with
    | none => read
    | some b => read.set s b

/-- The substitutions of a noise line applied in order, site `k` with code `k`. -/
def spec_apply_noise : List Char → List Nat → List Char → List Char
  | read, s :: sites, c :: cs => spec_apply_noise (spec_substitute read s c) sites cs
  | read, _, _ => read

/-- Orientation of a reconstructed read: kept for `d`, reverse complement
otherwise. -/
def spec_orient (RC : Char) (read : List Char) : List Char :=
  if RC = 'd' then read else (read.reverse).map complement

/-! ## Concrete inputs used below -/

/-- End-to-end scenario 1 of the specification: single-end, `preserve_order`,
four records with flags `1 1 1 1`, lengths `[4, 4, 4, 4]`, absolute positions
`[0, 1, 2, 3]`, orientations `d d r d` and four empty noise lines. -/
def scenario_1 : BlockVars :=
  open_block ['1', '1', '1', '1'] ['\n', '\n', '\n', '\n'] []
    (le_bytes 8 0 ++ le_bytes 8 1 ++ le_bytes 8 2 ++ le_bytes 8 3)
    ['d', 'd', 'r', 'd'] [] [4, 0, 4, 0, 4, 0, 4, 0] [] []

/-- The reference of scenario 1. -/
def scenario_1_seq : List Char :=
  ['A', 'C', 'G', 'T', 'A', 'C', 'G', 'T', 'A', 'C', 'G', 'T']

/-- End-to-end scenario 3 of the specification, as streams: one paired-end
record with flag `4`, both lengths 8, position 10 and orientation `d` in the
absolute streams, pair delta `+3` and pair flip `'0'` in the pair streams.
Eight characters are supplied in the unaligned stream and two empty noise
lines in the noise stream. -/
def scenario_3 : BlockVars :=
  open_block ['4'] ['\n', '\n'] [] (le_bytes 8 10) ['d']
    ['N', 'N', 'N', 'N', 'N', 'N', 'N', 'N'] [8, 0, 8, 0] (le_bytes 2 3) ['0']

/-- A reference of 24 bases for scenario 3. -/
def scenario_3_seq : List Char :=
  ['A', 'C', 'G', 'T', 'A', 'C', 'G', 'T', 'A', 'C', 'G', 'T',
   'A', 'C', 'G', 'T', 'A', 'C', 'G', 'T', 'A', 'C', 'G', 'T']

/-- What is observed of a decoded paired-end record: mate 1, mate 2, the
position and orientation used for mate 2, and what is left of the unaligned,
position, pair-position and pair-orientation streams. -/
def observe_pair (r : Except Fault (RecordOut × BlockVars)) :
    Option (List Char × Option (List Char) × Nat × Char ×
      List Char × List Nat × List Nat × List Char) :=
  match r with
  | .ok (o, v) =>
    some (o.read_array_1, o.read_array_2, v.pos_2, v.RC_2,
      v.f_unaligned, v.f_pos, v.f_pos_pair, v.f_RC_pair)
  | .error _ => none

/-- A single-end archive of `2^32 - 1` reads with the block size 256000,
decoded with `T` threads for the ten reads that start at block 16776. -/
def near_limit (T : Nat) : Params :=
  ⟨4294967295, 256000, false, T, 4294656000, 4294656010⟩

/-- A single-end block whose only record carries the flag `7`: length 4,
absolute position 0, orientation `d`, empty noise line. -/
def flag_seven_block : BlockVars :=
  open_block ['7'] ['\n'] [] (le_bytes 8 0) ['d'] [] [4, 0] [] []

/-- A paired-end record with the flag `0`: mate 1 of length 8 at position 10
with orientation `d`, mate 2 of length 8 with pair delta `+3` and pair flip
`'0'`, two empty noise lines. -/
def relative_pair : BlockVars :=
  open_block ['0'] ['\n', '\n'] [] (le_bytes 8 10) ['d'] [] [8, 0, 8, 0] (le_bytes 2 3) ['0']

/-- A paired-end record with the flag `2`: lengths 3 and 2, five characters in
the unaligned stream, and data in every other stream. -/
def singleton_pair_block : BlockVars :=
  open_block ['2', '1'] ['0', '\n'] [1, 0] (le_bytes 8 7) ['r']
    ['A', 'C', 'G', 'T', 'N', 'A'] [3, 0, 2, 0, 9, 0] (le_bytes 2 3) ['0']

/-- The sites visited by the loop `for (uint16_t k = 0; k < noise.size(); k++)`:
the same recursion as `noise_loop`, returning the values `noisepos` takes after
`noisepos += prevnoisepos`, in the order of the iterations. -/
def noise_loop_sites (t : NoiseTable) :
    List Char → Nat → List Char → List Nat → Except Fault (List Nat)
  | [], _, _, _ => .ok []
  | c :: noise, prevnoisepos, read, f_noisepos =>
    match read_u16 f_noisepos with
    | .error e => .error e
    | .ok (np, rest) =>
      let noisepos := u16 (np + prevnoisepos)
      match read[noisepos]? with
      | none => .error .undefined
      | some r =>
        match t r c with
        | none => .error .undefined
        | some b =>
          match noise_loop_sites t noise noisepos (read.set noisepos b) rest with
          | .error e => .error e
          | .ok sites => .ok (noisepos :: sites)

/-- The sites of a run, when it ran to completion. -/
def sites_of (r : Except Fault (List Nat)) : Option (List Nat) :=
  match r with
  | .ok sites => some sites
  | .error _ => none

/-- The read of a reconstruction, when it ran to completion. -/
def read_of (r : Except Fault (List Char × List Char × List Nat)) : Option (List Char) :=
  match r with
  | .ok (read, _, _) => some read
  | .error _ => none

/-! ## Shard assignment (`decompress_unpack_seq`, lines 672-677) -/

/-- A product of two non-negative `int` values: defined when it fits in 31
bits; beyond that signed overflow leaves the behaviour undefined. -/
def int_mul (a b : Nat) : Except Fault Nat :=
  if a * b < 2147483648 then .ok (a * b) else .error .undefined

/-- The values `tid_e` takes in the loop
`for (tid_e = tid * num_thr_e / num_thr; tid_e < (tid + 1) * num_thr_e / num_thr; tid_e++)`
of thread `tid`. -/
def shards_of_thread (num_thr_e num_thr tid : Nat) : Except Fault (List Nat) :=
  match int_mul tid num_thr_e, int_mul (tid + 1) num_thr_e with
  | .ok lo, .ok hi => .ok (List.range' (lo / num_thr) (hi / num_thr - lo / num_thr))
  | _, _ => .error .undefined

/-- The shards a thread unpacks, none when its loop bounds are undefined. -/
def shard_list (num_thr_e num_thr tid : Nat) : List Nat :=
  match shards_of_thread num_thr_e num_thr tid with
  | .ok l => l
  | .error _ => []

/-! ## Synthesized identifiers (`decompress_short` lines 426-431,
`decompress_long` lines 615-620), for `preserve_id == false` -/

theorem assign_apply (t : NoiseTable) (b c v b1 c1 : Char) :
    (t.assign b c v) b1 c1 = if b1 = b ∧ c1 = c then some v else t b1 c1 := rfl

/-- C5: whatever the table held before, after `set_dec_noise_array` the rows
`A`, `C`, `G`, `T`, `N` read `(C,G,T,N)`, `(A,G,T,N)`, `(T,A,C,N)`, `(G,C,A,N)`,
`(A,G,C,T)` under the codes `'0'`, `'1'`, `'2'`, `'3'`; these twenty cells are
the twenty cells of the table in section 6 of the specification. -/
theorem set_dec_noise_array_rows (t : NoiseTable) :
    noise_codes.map (set_dec_noise_array t 'A') = [some 'C', some 'G', some 'T', some 'N'] ∧
    noise_codes.map (set_dec_noise_array t 'C') = [some 'A', some 'G', some 'T', some 'N'] ∧
    noise_codes.map (set_dec_noise_array t 'G') = [some 'T', some 'A', some 'C', some 'N'] ∧
    noise_codes.map (set_dec_noise_array t 'T') = [some 'G', some 'C', some 'A', some 'N'] ∧
    noise_codes.map (set_dec_noise_array t 'N') = [some 'A', some 'G', some 'C', some 'T'] ∧
    ref_bases.map (fun b => noise_codes.map (set_dec_noise_array t b)) =
      ref_bases.map (fun b => noise_codes.map (spec_noise_table b)) := by
  refine ⟨?_, ?_, ?_, ?_, ?_, ?_⟩ <;>
  simp [noise_codes, ref_bases, set_dec_noise_array, assign_apply, spec_noise_table,
    spec_noise_row, spec_noise_column]

/-- C6: for every reference base `b` among `A, C, G, T, N` and every noise code
`c` among `'0', '1', '2', '3'`, the cell `dec_noise[b][c]` is assigned and holds
a base different from `b` (again one of `A, C, G, T, N`). -/
theorem dec_noise_changes_base (t : NoiseTable) (b c : Char)
    (hb : b ∈ ref_bases) (hc : c ∈ noise_codes) :
    ∃ v, set_dec_noise_array t b c = some v ∧ v ≠ b ∧ v ∈ ref_bases := by
  simp only [ref_bases, noise_codes, List.mem_cons, List.mem_singleton, List.not_mem_nil,
    or_false] at hb hc
  rcases hb with rfl | rfl | rfl | rfl | rfl <;> rcases hc with rfl | rfl | rfl | rfl <;>
    simp [set_dec_noise_array, assign_apply, ref_bases]

theorem dec_noise_changes_base_witness :
    ∃ v, set_dec_noise_array NoiseTable.fresh 'G' '1' = some v ∧ v ≠ 'G' ∧ v ∈ ref_bases :=
  dec_noise_changes_base NoiseTable.fresh 'G' '1' (by decide) (by decide)

/-! ## The reference unpacker -/

theorem unpack_loop_length (payload : List Nat) :
    (unpack_loop payload).length = 4 * payload.length := by
  induction payload with
  | nil => rfl
  | cons b rest ih => simp [unpack_loop, unpack_byte, ih]; omega

theorem inttobase_eq (x : Nat) (h : x < 4) : inttobase x = spec_base x := by
  interval_cases x <;> rfl

theorem unpack_byte_eq (b : Nat) :
    unpack_byte (b % 256) =
      [spec_base (b % 4), spec_base (b / 4 % 4), spec_base (b / 16 % 4),
        spec_base (b / 64 % 4)] := by
  have h0 : b % 256 % 4 = b % 4 := by omega
  have h1 : b % 256 / 4 % 4 = b / 4 % 4 := by omega
  have h2 : b % 256 / 4 / 4 % 4 = b / 16 % 4 := by omega
  have h3 : b % 256 / 4 / 4 / 4 % 4 = b / 64 % 4 := by omega
  simp only [unpack_byte, h0, h1, h2, h3]
  rw [inttobase_eq _ (Nat.mod_lt _ (by decide)), inttobase_eq _ (Nat.mod_lt _ (by decide)),
    inttobase_eq _ (Nat.mod_lt _ (by decide)), inttobase_eq _ (Nat.mod_lt _ (by decide))]

theorem unpack_loop_get (payload : List Nat) (i : Nat) (h : i < payload.length) :
    ((unpack_loop payload).drop (4 * i)).take 4 = unpack_byte (payload[i] % 256) := by
  induction payload generalizing i with
  | nil => simp at h
  | cons b rest ih =>
    cases i with
    | zero => simp [unpack_loop, unpack_byte]
    | succ j =>
      have hj : j < rest.length := by simpa using h
      have : 4 * (j + 1) = (unpack_byte (b % 256)).length + 4 * j := by
        simp [unpack_byte]; omega
      rw [unpack_loop, this, List.drop_append]
      simpa using ih j hj

/-- C7: for every packed payload of `n` bytes and every tail, the shard text is
`4 n` characters followed by the tail, and byte `b` at index `i` gives the
characters `base (b mod 4)`, `base (b div 4 mod 4)`, `base (b div 16 mod 4)`,
`base (b div 64 mod 4)` at positions `4 i`, `4 i + 1`, `4 i + 2`, `4 i + 3`. -/
theorem unpack_shard_spec (payload : List Nat) (tail : List Char) :
    (unpack_shard payload tail).length = 4 * payload.length + tail.length ∧
    (unpack_shard payload tail).drop (4 * payload.length) = tail ∧
    ∀ i (h : i < payload.length),
      (unpack_shard payload tail)[4 * i]? = some (spec_base (payload[i] % 4)) ∧
      (unpack_shard payload tail)[4 * i + 1]? = some (spec_base (payload[i] / 4 % 4)) ∧
      (unpack_shard payload tail)[4 * i + 2]? = some (spec_base (payload[i] / 16 % 4)) ∧
      (unpack_shard payload tail)[4 * i + 3]? = some (spec_base (payload[i] / 64 % 4)) := by
  refine ⟨by simp [unpack_shard, unpack_loop_length], ?_, ?_⟩
  · rw [unpack_shard, List.drop_append_of_le_length (by simp [unpack_loop_length])]
    rw [List.drop_of_length_le (by simp [unpack_loop_length])]
    simp
  · intro i h
    have hlen := unpack_loop_length payload
    have key := unpack_loop_get payload i h
    rw [unpack_byte_eq] at key
    have hget : ∀ k, k < 4 → (unpack_shard payload tail)[4 * i + k]? =
        (((unpack_loop payload).drop (4 * i)).take 4)[k]? := by
      intro k hk
      rw [List.getElem?_take_of_lt hk, List.getElem?_drop, unpack_shard,
        List.getElem?_append_left (by omega)]
    have h0 := hget 0 (by decide)
    have h1 := hget 1 (by decide)
    have h2 := hget 2 (by decide)
    have h3 := hget 3 (by decide)
    rw [key] at h0 h1 h2 h3
    simp only [Nat.add_zero] at h0
    exact ⟨by simpa using h0, by simpa using h1, by simpa using h2, by simpa using h3⟩

theorem unpack_shard_spec_witness :
    (unpack_shard [228, 27] ['A', 'C']).length = 4 * 2 + 2 ∧
    (unpack_shard [228, 27] ['A', 'C']).drop (4 * 2) = ['A', 'C'] ∧
    (unpack_shard [228, 27] ['A', 'C'])[4 * 1]? = some (spec_base (27 % 4)) ∧
    (unpack_shard [228, 27] ['A', 'C'])[4 * 1 + 1]? = some (spec_base (27 / 4 % 4)) ∧
    (unpack_shard [228, 27] ['A', 'C'])[4 * 1 + 2]? = some (spec_base (27 / 16 % 4)) ∧
    (unpack_shard [228, 27] ['A', 'C'])[4 * 1 + 3]? = some (spec_base (27 / 64 % 4)) :=
  ⟨(unpack_shard_spec [228, 27] ['A', 'C']).1, (unpack_shard_spec [228, 27] ['A', 'C']).2.1,
    (unpack_shard_spec [228, 27] ['A', 'C']).2.2 1 (by decide)⟩

/-! ## End-to-end scenario 1 -/

/-- C8, as the specification states it, fails: the decoder does not produce
the reads `ACGT, CGTA, ACGT, TACG` for scenario 1. -/
theorem scenario_1_reads_differ :
    reads_1 (decode_block dec_noise scenario_1_seq false true 4 scenario_1) ≠
      some [['A', 'C', 'G', 'T'], ['C', 'G', 'T', 'A'], ['A', 'C', 'G', 'T'],
        ['T', 'A', 'C', 'G']] := by
  decide

/-- C8, amended: in scenario 1 the decoder produces the reads
`ACGT, CGTA, GTAC, TACG`; the third is the reverse complement of the window
`GTAC`, which is `GTAC` again. -/
theorem scenario_1_reads :
    reads_1 (decode_block dec_noise scenario_1_seq false true 4 scenario_1) =
      some [['A', 'C', 'G', 'T'], ['C', 'G', 'T', 'A'], ['G', 'T', 'A', 'C'],
        ['T', 'A', 'C', 'G']] ∧
    reverse_complement ['G', 'T', 'A', 'C'] 4 = ['G', 'T', 'A', 'C'] := by
  decide

/-! ## The reference window -/

theorem read_bytes_error (n : Nat) (s : List Nat) (e : Fault)
    (h : read_bytes n s = .error e) : e = .short_read := by
  unfold read_bytes at h
  split at h
  · simpa using h.symm
  · simp at h

theorem read_u64_error (s : List Nat) (e : Fault) (h : read_u64 s = .error e) :
    e = .short_read := by
  unfold read_u64 at h
  split at h
  · simp at h
  · rename_i e1 he
    have := read_bytes_error _ _ _ he
    simp only [Except.error.injEq] at h
    rw [← h, this]

theorem le_bytes_length (n v : Nat) : (le_bytes n v).length = n := by
  induction n generalizing v with
  | zero => rfl
  | succ n ih => simp [le_bytes, ih]

theorem le_value_le_bytes (n v : Nat) : le_value (le_bytes n v) = v % 256 ^ n := by
  induction n generalizing v with
  | zero => simp [le_bytes, le_value, Nat.mod_one]
  | succ n ih =>
    simp only [le_bytes, le_value, ih, Nat.mod_mod]
    rw [pow_succ', Nat.mod_mul]

theorem read_bytes_le_bytes (n v : Nat) (rest : List Nat) :
    read_bytes n (le_bytes n v ++ rest) = .ok (le_bytes n v, rest) := by
  have h := le_bytes_length n v
  unfold read_bytes
  rw [if_neg (by simp [h])]
  rw [List.take_left' h, List.drop_left' h]

theorem read_u16_le_bytes (d : Nat) (rest : List Nat) :
    read_u16 (le_bytes 2 d ++ rest) = .ok (u16 d, rest) := by
  unfold read_u16
  rw [read_bytes_le_bytes]
  simp only [le_value_le_bytes, u16]
  rfl

theorem set_dec_noise_array_cell (t : NoiseTable) (b c : Char)
    (hb : b ∈ ref_bases) (hc : c ∈ noise_codes) :
    ∃ v, set_dec_noise_array t b c = some v ∧ spec_noise_table b c = some v ∧ v ≠ b ∧
      v ∈ ref_bases := by
  simp only [ref_bases, noise_codes, List.mem_cons, List.mem_singleton, List.not_mem_nil,
    or_false] at hb hc
  rcases hb with rfl | rfl | rfl | rfl | rfl <;> rcases hc with rfl | rfl | rfl | rfl <;>
    simp [set_dec_noise_array, assign_apply, ref_bases, spec_noise_table, spec_noise_row,
      spec_noise_column]

theorem noise_loop_spec (cs : List Char) :
    ∀ (ds : List Nat) (prev : Nat) (read : List Char) (rest : List Nat),
      cs.length = ds.length →
      (∀ s ∈ spec_sites prev ds, s < read.length) →
      (∀ r ∈ read, r ∈ ref_bases) →
      (∀ c ∈ cs, c ∈ noise_codes) →
      noise_loop dec_noise cs prev read (ds.flatMap (le_bytes 2) ++ rest) =
        .ok (spec_apply_noise read (spec_sites prev ds) cs, rest) := by
  induction cs with
  | nil =>
    intro ds prev read rest hlen _ _ _
    have : ds = [] := by
      cases ds with
      | nil => rfl
      | cons d ds => simp at hlen
    subst this
    simp [noise_loop, spec_sites, spec_apply_noise]
  | cons c cs ih =>
    intro ds prev read rest hlen hsites hread hcodes
    cases ds with
    | nil => simp at hlen
    | cons d ds =>
      have hlen1 : cs.length = ds.length := by simpa using hlen
      have hs0 : u16 (prev + d) < read.length := hsites _ (by simp [spec_sites])
      have hsum : u16 (u16 d + prev) = u16 (prev + d) := by unfold u16; omega
      have hr : read[u16 (prev + d)]? = some (read[u16 (prev + d)]) :=
        List.getElem?_eq_getElem hs0
      have hrmem : read[u16 (prev + d)] ∈ ref_bases := hread _ (List.getElem_mem _)
      obtain ⟨b, hb1, hb2, -, hb4⟩ :=
        set_dec_noise_array_cell NoiseTable.fresh _ c hrmem (hcodes c (by simp))
      have hread1 : ∀ r ∈ read.set (u16 (prev + d)) b, r ∈ ref_bases := by
        intro r hr1
        rcases List.mem_or_eq_of_mem_set hr1 with h | h
        · exact hread r h
        · rw [h]; exact hb4
      have hsites1 : ∀ s ∈ spec_sites (u16 (prev + d)) ds,
          s < (read.set (u16 (prev + d)) b).length := by
        intro s hs
        rw [List.length_set]
        exact hsites s (by simp [spec_sites, hs])
      have hrec := ih ds (u16 (prev + d)) (read.set (u16 (prev + d)) b) rest hlen1 hsites1
        hread1 (fun x hx => hcodes x (by simp [hx]))
      have hsub : spec_substitute read (u16 (prev + d)) c = read.set (u16 (prev + d)) b := by
        simp only [spec_substitute, hr, hb2]
      simp only [List.flatMap_cons, List.append_assoc, noise_loop, read_u16_le_bytes, hsum, hr,
        spec_sites, spec_apply_noise, hsub]
      have hb1' : dec_noise read[u16 (prev + d)] c = some b := hb1
      simp only [hb1', hrec]

theorem spec_substitute_length (read : List Char) (s : Nat) (c : Char) :
    (spec_substitute read s c).length = read.length := by
  unfold spec_substitute
  split
  · rfl
  · split
    · rfl
    · simp

theorem spec_substitute_getElem_ne (read : List Char) (s i : Nat) (c : Char) (h : i ≠ s) :
    (spec_substitute read s c)[i]? = read[i]? := by
  unfold spec_substitute
  split
  · rfl
  · split
    · rfl
    · rw [List.getElem?_set_ne (Ne.symm h)]

theorem spec_apply_noise_keeps (sites : List Nat) :
    ∀ (read : List Char) (cs : List Char) (i : Nat), i ∉ sites →
      (spec_apply_noise read sites cs)[i]? = read[i]? ∧
      (spec_apply_noise read sites cs).length = read.length := by
  induction sites with
  | nil => intro read cs i _; simp [spec_apply_noise]
  | cons s sites ih =>
    intro read cs i hi
    have h1 : i ≠ s := fun h => hi (by simp [h])
    have h2 : i ∉ sites := fun h => hi (by simp [h])
    cases cs with
    | nil => simp [spec_apply_noise]
    | cons c cs =>
      simp only [spec_apply_noise]
      obtain ⟨e1, e2⟩ := ih (spec_substitute read s c) cs i h2
      exact ⟨by rw [e1, spec_substitute_getElem_ne _ _ _ _ h1],
        by rw [e2, spec_substitute_length]⟩

/-- C4: for an aligned mate with reference window `w = SEQ[pos .. pos+length)`
over `A, C, G, T, N`, a noise line `c_0 .. c_(m-1)` of codes `'0'..'3'` with
`m < 65536`, and noise-position deltas `d_0 .. d_(m-1)` whose running 16-bit
sums `s_k` are all below `length`: the read before orientation is `w` after the
substitutions `read[s_k] := N[read[s_k]][c_k]` for `k = 0 .. m-1` in order,
every index that is not one of the `s_k` keeps the reference character, and
the result is then oriented by `RC`.  The noise line and exactly `m` deltas are
consumed. -/
theorem reconstruct_applies_noise (seq : List Char) (pos len : Nat) (RC : Char)
    (f_noise : List Char) (ds rest : List Nat)
    (hwin : pos + len ≤ seq.length)
    (hm : (getline f_noise).1.length < 65536)
    (hlen : (getline f_noise).1.length = ds.length)
    (hsites : ∀ s ∈ spec_sites 0 ds, s < len)
    (hseq : ∀ r ∈ (seq.drop pos).take len, r ∈ ref_bases)
    (hcodes : ∀ c ∈ (getline f_noise).1, c ∈ noise_codes) :
    reconstruct dec_noise seq pos len RC f_noise (ds.flatMap (le_bytes 2) ++ rest) =
      .ok (spec_orient RC
            (spec_apply_noise ((seq.drop pos).take len) (spec_sites 0 ds) (getline f_noise).1),
          (getline f_noise).2, rest) ∧
    ((seq.drop pos).take len).length = len ∧
    ∀ i, i ∉ spec_sites 0 ds →
      (spec_apply_noise ((seq.drop pos).take len) (spec_sites 0 ds) (getline f_noise).1)[i]? =
        ((seq.drop pos).take len)[i]? := by
  have hwlen : ((seq.drop pos).take len).length = len := by
    rw [List.length_take, List.length_drop]; omega
  refine ⟨?_, hwlen, fun i hi => (spec_apply_noise_keeps _ _ _ i hi).1⟩
  have hloop := noise_loop_spec (getline f_noise).1 ds 0 ((seq.drop pos).take len) rest hlen
    (by rw [hwlen]; exact hsites) hseq hcodes
  unfold reconstruct substr
  rw [if_neg (by omega)]
  simp only [hloop]
  rw [if_neg (by omega)]
  rfl

theorem reconstruct_applies_noise_witness :
    reconstruct dec_noise ['A', 'A', 'A', 'A', 'A'] 0 5 'd' ['0', '\n']
        ([2].flatMap (le_bytes 2) ++ []) =
      .ok (['A', 'A', 'C', 'A', 'A'], [], []) := by
  have h := (reconstruct_applies_noise ['A', 'A', 'A', 'A', 'A'] 0 5 'd' ['0', '\n'] [2] []
    (by decide) (by decide) (by decide) (by decide) (by decide) (by decide)).1
  rw [h]
  rfl

/-! ## Flag `4` -/

/-- C9, as the specification states it, fails: in scenario 3 (flag `4`) mate 1
is not taken from the reference at position 10 but is the eight characters of
the unaligned stream, mate 2 is placed at position 10 (the `u64` of the
position stream) with orientation `d` (the character of the orientation
stream), not at `10 + 3 = 13` with orientation `r`, and the pair streams are
left unread. -/
theorem flag_4_is_not_relative :
    observe_pair (decode_record dec_noise scenario_3_seq true false scenario_3) =
      some (['N', 'N', 'N', 'N', 'N', 'N', 'N', 'N'],
        some ['G', 'T', 'A', 'C', 'G', 'T', 'A', 'C'], 10, 'd',
        [], [], le_bytes 2 3, ['0']) ∧
    (scenario_3_seq.drop 10).take 8 ≠ ['N', 'N', 'N', 'N', 'N', 'N', 'N', 'N'] ∧
    (10 : Nat) ≠ 13 ∧ 'd' ≠ 'r' :=
  ⟨by rfl, by decide, by decide, by decide⟩

/-- C9, amended: a paired-end record with flag `4` has a singleton mate 1 and
an independently encoded aligned mate 2.  Mate 1 is the next `length_1`
characters of the unaligned stream; no position or orientation is read for it.
The position of mate 2 is the next `u64` of the position stream and its
orientation the next character of the orientation stream; mate 2 is then
reconstructed from the reference.  The pair-position and pair-orientation
streams, `pos_1`, `RC_1` and the delta state are left as they were. -/
theorem flag_4_record (t : NoiseTable) (seq : List Char) (preserve_order : Bool)
    (v : BlockVars) (fl : List Char) (l1 l2 p2 : Nat) (rl1 rl2 ps fnp : List Nat)
    (m1 m2 ua rcs fn : List Char) (rc2 : Char)
    (hflag : extract_char v.f_flag = .ok ('4', fl))
    (hl1 : read_u16 v.f_readlength = .ok (l1, rl1))
    (hm1 : read_chars l1 v.f_unaligned = .ok (m1, ua))
    (hl2 : read_u16 rl1 = .ok (l2, rl2))
    (hp2 : read_u64 v.f_pos = .ok (p2, ps))
    (hrc2 : extract_char v.f_RC = .ok (rc2, rcs))
    (hm2 : reconstruct t seq p2 l2 rc2 v.f_noise v.f_noisepos = .ok (m2, fn, fnp)) :
    decode_record t seq true preserve_order v =
      .ok (⟨'4', l1, m1, some l2, some m2⟩,
        { v with f_flag := fl, f_readlength := rl2, f_unaligned := ua, f_pos := ps,
                 f_RC := rcs, pos_2 := p2, RC_2 := rc2, f_noise := fn, f_noisepos := fnp }) := by
  simp [decode_record, decode_mate_1, decode_mate_2, decode_pos_2, hflag, hl1, hm1, hl2, hp2,
    hrc2, hm2]

theorem flag_4_record_witness :
    decode_record dec_noise scenario_3_seq true false scenario_3 =
      .ok (⟨'4', 8, ['N', 'N', 'N', 'N', 'N', 'N', 'N', 'N'], some 8,
          some ['G', 'T', 'A', 'C', 'G', 'T', 'A', 'C']⟩,
        { scenario_3 with f_flag := [], f_readlength := [], f_unaligned := [], f_pos := [],
                          f_RC := [], pos_2 := 10, RC_2 := 'd', f_noise := ['\n'],
                          f_noisepos := [] }) :=
  flag_4_record dec_noise scenario_3_seq false scenario_3 [] 8 8 10 [8, 0] [] [] []
    ['N', 'N', 'N', 'N', 'N', 'N', 'N', 'N'] ['G', 'T', 'A', 'C', 'G', 'T', 'A', 'C'] [] []
    ['\n'] 'd' rfl rfl rfl rfl rfl rfl rfl

/-! ## The step loop: worker slices -/

theorem worker_apply (p : Params) (nbd cur tid : Nat) (arr : Nat → Option Rec) (i : Nat) :
    worker p nbd cur tid arr i =
      if tid * p.num_reads_per_block < cur ∧ tid * p.num_reads_per_block ≤ i ∧
          i < tid * p.num_reads_per_block + num_reads_thr p cur tid then
        some ⟨u32 (nbd + tid), i - tid * p.num_reads_per_block⟩
      else arr i := by
  unfold worker
  by_cases h : tid * p.num_reads_per_block < cur
  · simp only [h, if_true, true_and]
  · simp only [h, if_false, false_and]

theorem div_mod_of_block (B t i : Nat) (h1 : t * B ≤ i) (h2 : i < t * B + B) :
    i / B = t ∧ i % B = i - t * B := by
  have hd : i / B = t := Nat.div_eq_of_lt_le h1 (by rw [Nat.add_mul, Nat.one_mul]; exact h2)
  refine ⟨hd, ?_⟩
  have := Nat.div_add_mod i B
  rw [hd, Nat.mul_comm] at this
  omega

theorem parallel_fill (p : Params) (nbd cur : Nat) (arr : Nat → Option Rec)
    (hcur : cur < 4294967296) :
    ∀ t i, i < cur → i < t * p.num_reads_per_block →
      (List.range t).foldl (fun a tid => worker p nbd cur tid a) arr i =
        some ⟨u32 (nbd + i / p.num_reads_per_block), i % p.num_reads_per_block⟩ := by
  intro t
  induction t with
  | zero => intro i _ h; simp at h
  | succ t ih =>
    intro i hi hlt
    rw [List.range_succ, List.foldl_append, List.foldl_cons, List.foldl_nil, worker_apply]
    rw [Nat.add_mul, Nat.one_mul] at hlt
    by_cases hge : t * p.num_reads_per_block ≤ i
    · obtain ⟨hd, hm⟩ := div_mod_of_block _ _ _ hge hlt
      have hthr : num_reads_thr p cur t =
          min cur ((t + 1) * p.num_reads_per_block) - t * p.num_reads_per_block := by
        unfold num_reads_thr u32
        apply Nat.mod_eq_of_lt
        have : min cur ((t + 1) * p.num_reads_per_block) ≤ cur := Nat.min_le_left _ _
        omega
      have hmin : i < min cur ((t + 1) * p.num_reads_per_block) := by
        rw [Nat.add_mul, Nat.one_mul]
        exact Nat.lt_min.mpr ⟨hi, hlt⟩
      rw [if_pos ⟨by omega, hge, by rw [hthr]; omega⟩, hd, hm]
    · rw [if_neg (fun h => hge h.2.1)]
      exact ih i hi (by omega)

theorem parallel_region_apply (p : Params) (nbd cur : Nat) (arr : Nat → Option Rec)
    (hcur : cur < 4294967296) (hle : cur ≤ p.num_thr * p.num_reads_per_block)
    (i : Nat) (hi : i < cur) :
    parallel_region p nbd cur arr i =
      some ⟨u32 (nbd + i / p.num_reads_per_block), i % p.num_reads_per_block⟩ :=
  parallel_fill p nbd cur arr hcur p.num_thr i hi (by omega)

/-! ## The step loop: range slicing -/

theorem rec_range_append (B g m n : Nat) :
    rec_range B g m ++ rec_range B (g + m) n = rec_range B g (m + n) := by
  unfold rec_range
  rw [← List.map_append]
  have h := List.range'_append g m n 1
  rw [Nat.one_mul] at h
  rw [h, Nat.add_comm]

theorem rec_range_length (B g n : Nat) : (rec_range B g n).length = n := by
  simp [rec_range]

theorem records_eq_rec_range (B : Nat) (w : WriteCall) (g : Nat)
    (h : ∀ k, k < w.count → w.array (w.shift + k) = some (rec_at B (g + k))) :
    w.records = rec_range B g w.count := by
  unfold WriteCall.records rec_range
  rw [List.range'_eq_map_range, List.map_map]
  apply List.map_congr_left
  intro k hk
  exact h k (List.mem_range.mp hk)

theorem records_of_mate_append (j : Nat) (l1 l2 : List WriteCall) :
    records_of_mate j (l1 ++ l2) = records_of_mate j l1 ++ records_of_mate j l2 := by
  simp [records_of_mate, List.filter_append, List.flatMap_append]

theorem records_of_mate_same (j : Nat) (w : WriteCall) (h : w.mate = j) :
    records_of_mate j [w] = w.records := by
  simp [records_of_mate, List.filter, h]

theorem records_of_mate_other (j : Nat) (w : WriteCall) (h : w.mate ≠ j) :
    records_of_mate j [w] = [] := by
  simp [records_of_mate, List.filter, h]

theorem num_reads_per_step_eq (p : Params) :
    num_reads_per_step p = min (p.num_thr * p.num_reads_per_block) (records_per_mate p) := by
  unfold num_reads_per_step records_per_mate
  cases p.paired_end <;> simp only [Bool.false_eq_true, if_false, if_true] <;> split <;> omega

theorem num_reads_cur_step_eq (p : Params) (nrd : Nat) (h1 : nrd ≤ records_per_mate p)
    (h2 : records_per_mate p +
      min (p.num_thr * p.num_reads_per_block) (records_per_mate p) < 4294967296) :
    num_reads_cur_step p nrd =
      if records_per_mate p ≤ nrd + min (p.num_thr * p.num_reads_per_block) (records_per_mate p)
      then records_per_mate p - nrd
      else min (p.num_thr * p.num_reads_per_block) (records_per_mate p) := by
  have hP := num_reads_per_step_eq p
  generalize min (p.num_thr * p.num_reads_per_block) (records_per_mate p) = P at *
  have e1 : u32 (num_reads_per_step p) = P := by
    rw [hP]; unfold u32; exact Nat.mod_eq_of_lt (by omega)
  have e2 : u32 (nrd + P) = nrd + P := by unfold u32; exact Nat.mod_eq_of_lt (by omega)
  have e3 : sub_u32 (records_per_mate p) nrd = records_per_mate p - nrd := by
    unfold sub_u32 u32
    rw [Nat.mod_eq_of_lt (show records_per_mate p < 4294967296 by omega),
      Nat.mod_eq_of_lt (show nrd < 4294967296 by omega)]
    omega
  unfold num_reads_cur_step
  simp only [e1, e2]
  unfold records_per_mate at e3 ⊢
  cases hpe : p.paired_end <;> simp only [hpe, Bool.false_eq_true, if_false, if_true] at e3 ⊢ <;>
    simp only [e3, ge_iff_le]

theorem tail_hit_eq (p : Params) (nrd cur : Nat) (h : nrd + cur < 4294967296) :
    tail_hit p nrd cur = decide (p.end_num ≤ nrd + cur) := by
  unfold tail_hit u32
  rw [Nat.mod_eq_of_lt h]

theorem num_reads_cur_step_output_eq (p : Params) (nrd cur : Nat)
    (h : nrd + cur < 4294967296) (h1 : nrd ≤ p.end_num) (h2 : p.end_num < 4294967296) :
    num_reads_cur_step_output p nrd cur =
      if p.end_num ≤ nrd + cur then p.end_num - nrd else cur := by
  unfold num_reads_cur_step_output
  rw [tail_hit_eq p nrd cur h]
  by_cases hh : p.end_num ≤ nrd + cur
  · simp only [hh, decide_True, if_true]
    unfold u32 u64
    omega
  · simp only [hh, decide_False, Bool.false_eq_true, if_false]

theorem write_call_mate (p : Params) (nbd j : Nat) (arr : Nat → Option Rec) (out : Nat) :
    (write_call p nbd j arr out).mate = j := by
  unfold write_call; split <;> rfl

theorem write_call_array (p : Params) (nbd j : Nat) (arr : Nat → Option Rec) (out : Nat) :
    (write_call p nbd j arr out).array = arr := by
  unfold write_call; split <;> rfl

theorem write_call_shift (p : Params) (nbd j : Nat) (arr : Nat → Option Rec) (out : Nat)
    (hs : p.start_num < 4294967296) :
    (write_call p nbd j arr out).shift =
      if nbd = p.start_num / p.num_reads_per_block then p.start_num % p.num_reads_per_block
      else 0 := by
  unfold write_call
  split
  · simp only [u32]
    exact Nat.mod_eq_of_lt (lt_of_le_of_lt (Nat.mod_le _ _) hs)
  · rfl

theorem write_call_count (p : Params) (nbd j : Nat) (arr : Nat → Option Rec) (out : Nat)
    (hs : p.start_num < 4294967296) (ho : out < 4294967296)
    (hle : (if nbd = p.start_num / p.num_reads_per_block then
      p.start_num % p.num_reads_per_block else 0) ≤ out) :
    (write_call p nbd j arr out).count =
      out - (if nbd = p.start_num / p.num_reads_per_block then
        p.start_num % p.num_reads_per_block else 0) := by
  unfold write_call
  split
  · rename_i h
    rw [if_pos h] at hle
    have hm : p.start_num % p.num_reads_per_block < 4294967296 :=
      lt_of_le_of_lt (Nat.mod_le _ _) hs
    simp only [u32, sub_u32, Nat.mod_eq_of_lt hm, Nat.mod_eq_of_lt ho]
    omega
  · simp
theorem step_body_fields (p : Params) (s : StepState) :
    (step_body p s).num_reads_done =
      u32 (s.num_reads_done + num_reads_cur_step p s.num_reads_done) ∧
    (step_body p s).num_blocks_done = u32 (s.num_blocks_done + p.num_thr) ∧
    (step_body p s).done =
      (s.done || tail_hit p s.num_reads_done (num_reads_cur_step p s.num_reads_done)) ∧
    (step_body p s).written = s.written ++
      (write_call p s.num_blocks_done 0
          (parallel_region p s.num_blocks_done (num_reads_cur_step p s.num_reads_done)
            s.read_array)
          (num_reads_cur_step_output p s.num_reads_done
            (num_reads_cur_step p s.num_reads_done)) ::
        if p.paired_end then
          [write_call p s.num_blocks_done 1
            (parallel_region p s.num_blocks_done (num_reads_cur_step p s.num_reads_done)
              s.read_array)
            (num_reads_cur_step_output p s.num_reads_done
              (num_reads_cur_step p s.num_reads_done))]
        else []) := by
  unfold step_body mate_pass
  cases hpe : p.paired_end <;> simp [hpe, Bool.or_assoc]

theorem head_shift_lt (p : Params) (s : StepState) (hB : 1 ≤ p.num_reads_per_block) :
    head_shift p s < p.num_reads_per_block := by
  unfold head_shift
  split
  · exact Nat.mod_lt _ (by omega)
  · omega

theorem step_facts (p : Params) (s : StepState)
    (hB : 1 ≤ p.num_reads_per_block) (hT : 1 ≤ p.num_thr)
    (heR : p.end_num ≤ records_per_mate p)
    (hw : records_per_mate p +
      min (p.num_thr * p.num_reads_per_block) (records_per_mate p) < 4294967296)
    (hinv3 : s.num_reads_done + head_shift p s ≤ p.end_num) :
    num_reads_cur_step p s.num_reads_done ≤ p.num_thr * p.num_reads_per_block ∧
    s.num_reads_done + num_reads_cur_step p s.num_reads_done ≤ records_per_mate p ∧
    (num_reads_cur_step p s.num_reads_done = 0 → s.num_reads_done + head_shift p s = p.end_num) ∧
    (s.num_reads_done + num_reads_cur_step p s.num_reads_done < p.end_num →
      num_reads_cur_step p s.num_reads_done = p.num_thr * p.num_reads_per_block) := by
  have hcur := num_reads_cur_step_eq p s.num_reads_done (by omega) hw
  have hTB : p.num_reads_per_block ≤ p.num_thr * p.num_reads_per_block :=
    Nat.le_mul_of_pos_left _ (by omega)
  generalize num_reads_cur_step p s.num_reads_done = cur at *
  generalize p.num_thr * p.num_reads_per_block = TB at *
  split at hcur <;> omega

theorem call_records (p : Params) (s : StepState) (cur out m : Nat)
    (hB : 1 ≤ p.num_reads_per_block)
    (hs : p.start_num < 4294967296)
    (hinv1 : s.num_reads_done = s.num_blocks_done * p.num_reads_per_block)
    (h1 : cur ≤ p.num_thr * p.num_reads_per_block)
    (h2 : s.num_reads_done + cur < 4294967296)
    (h3 : out ≤ cur) (h4 : head_shift p s ≤ out) :
    (write_call p s.num_blocks_done m
        (parallel_region p s.num_blocks_done cur s.read_array) out).records =
      rec_range p.num_reads_per_block (s.num_reads_done + head_shift p s)
        (out - head_shift p s) := by
  have hshift := write_call_shift p s.num_blocks_done m
    (parallel_region p s.num_blocks_done cur s.read_array) out hs
  have hcount := write_call_count p s.num_blocks_done m
    (parallel_region p s.num_blocks_done cur s.read_array) out hs (by omega) h4
  change _ = head_shift p s at hshift
  change _ = _ - head_shift p s at hcount
  rw [← hcount]
  apply records_eq_rec_range
  intro k hk
  rw [hcount] at hk
  rw [write_call_array, hshift]
  have hlt : head_shift p s + k < cur := by omega
  rw [parallel_region_apply p _ _ _ (by omega) h1 _ hlt]
  have hpos : 0 < p.num_reads_per_block := by omega
  have e1 : (s.num_reads_done + head_shift p s + k) / p.num_reads_per_block =
      s.num_blocks_done + (head_shift p s + k) / p.num_reads_per_block := by
    rw [hinv1, Nat.add_assoc, Nat.add_comm, Nat.add_mul_div_right _ _ hpos, Nat.add_comm]
  have e2 : (s.num_reads_done + head_shift p s + k) % p.num_reads_per_block =
      (head_shift p s + k) % p.num_reads_per_block := by
    rw [hinv1, Nat.add_assoc, Nat.add_comm, Nat.add_mul_mod_self_right]
  have e3 : s.num_blocks_done ≤ s.num_reads_done := by
    rw [hinv1]; exact Nat.le_mul_of_pos_right _ hpos
  have e4 : (head_shift p s + k) / p.num_reads_per_block ≤ head_shift p s + k :=
    Nat.div_le_self _ _
  have e5 : u32 (s.num_blocks_done + (head_shift p s + k) / p.num_reads_per_block) =
      s.num_blocks_done + (head_shift p s + k) / p.num_reads_per_block := by
    unfold u32; exact Nat.mod_eq_of_lt (by omega)
  rw [e5]
  simp only [rec_at, e1, e2]

theorem step_body_records (p : Params) (s : StepState) (j : Nat)
    (hB : 1 ≤ p.num_reads_per_block) (hT : 1 ≤ p.num_thr)
    (hse : p.start_num ≤ p.end_num) (heR : p.end_num ≤ records_per_mate p)
    (hw : records_per_mate p +
      min (p.num_thr * p.num_reads_per_block) (records_per_mate p) < 4294967296)
    (hinv1 : s.num_reads_done = s.num_blocks_done * p.num_reads_per_block)
    (hinv3 : s.num_reads_done + head_shift p s ≤ p.end_num)
    (hj : j = 0 ∨ (j = 1 ∧ p.paired_end = true)) :
    records_of_mate j (step_body p s).written =
      records_of_mate j s.written ++
        rec_range p.num_reads_per_block (s.num_reads_done + head_shift p s)
          ((if p.end_num ≤ s.num_reads_done + num_reads_cur_step p s.num_reads_done
            then p.end_num - s.num_reads_done
            else num_reads_cur_step p s.num_reads_done) - head_shift p s) := by
  obtain ⟨hf1, hf2, hf3, hf4⟩ := step_facts p s hB hT heR hw hinv3
  have hsh := head_shift_lt p s hB
  have hTB : p.num_reads_per_block ≤ p.num_thr * p.num_reads_per_block :=
    Nat.le_mul_of_pos_left _ (by omega)
  have hout := num_reads_cur_step_output_eq p s.num_reads_done
    (num_reads_cur_step p s.num_reads_done) (by omega) (by omega) (by omega)
  have hcall : ∀ m, (write_call p s.num_blocks_done m
        (parallel_region p s.num_blocks_done (num_reads_cur_step p s.num_reads_done)
          s.read_array)
        (num_reads_cur_step_output p s.num_reads_done
          (num_reads_cur_step p s.num_reads_done))).records =
      rec_range p.num_reads_per_block (s.num_reads_done + head_shift p s)
        ((if p.end_num ≤ s.num_reads_done + num_reads_cur_step p s.num_reads_done
          then p.end_num - s.num_reads_done
          else num_reads_cur_step p s.num_reads_done) - head_shift p s) := by
    intro m
    rw [hout]
    apply call_records p s _ _ m hB (by omega) hinv1 hf1 (by omega)
    · split <;> omega
    · split
      · omega
      · have := hf4 (by omega)
        omega
  rw [(step_body_fields p s).2.2.2, records_of_mate_append]
  congr 1
  rcases hj with rfl | ⟨rfl, hpe⟩
  · rw [← hcall 0]
    cases hpe : p.paired_end
    · simp only [Bool.false_eq_true, if_false]
      exact records_of_mate_same 0 _ (write_call_mate _ _ _ _ _)
    · simp only [if_true]
      rw [show ∀ (a b : WriteCall), [a, b] = [a] ++ [b] from fun _ _ => rfl,
        records_of_mate_append, records_of_mate_same 0 _ (write_call_mate _ _ _ _ _),
        records_of_mate_other 0 _ (by rw [write_call_mate]; decide), List.append_nil]
  · rw [← hcall 1]
    simp only [hpe, if_true]
    rw [show ∀ (a b : WriteCall), [a, b] = [a] ++ [b] from fun _ _ => rfl,
      records_of_mate_append, records_of_mate_same 1 _ (write_call_mate _ _ _ _ _),
      records_of_mate_other 1 _ (by rw [write_call_mate]; decide), List.nil_append]
theorem step_loop_done (p : Params) (fuel : Nat) (s : StepState) (h : s.done = true)
    (hf : 1 ≤ fuel) : step_loop p fuel s = some s.written := by
  cases fuel with
  | zero => omega
  | succ n => simp [step_loop, h]

theorem step_loop_slices (p : Params) (j : Nat)
    (hB : 1 ≤ p.num_reads_per_block) (hT : 1 ≤ p.num_thr)
    (hse : p.start_num ≤ p.end_num) (heR : p.end_num ≤ records_per_mate p)
    (hw : records_per_mate p +
      min (p.num_thr * p.num_reads_per_block) (records_per_mate p) < 4294967296)
    (hj : j = 0 ∨ (j = 1 ∧ p.paired_end = true)) :
    ∀ (fuel : Nat) (s : StepState), s.done = false →
      s.num_reads_done = s.num_blocks_done * p.num_reads_per_block →
      p.start_num / p.num_reads_per_block ≤ s.num_blocks_done →
      s.num_reads_done + head_shift p s ≤ p.end_num →
      p.end_num - s.num_reads_done + 2 ≤ fuel →
      ∃ calls, step_loop p fuel s = some calls ∧
        records_of_mate j calls = records_of_mate j s.written ++
          rec_range p.num_reads_per_block (s.num_reads_done + head_shift p s)
            (p.end_num - (s.num_reads_done + head_shift p s)) := by
  intro fuel
  induction fuel with
  | zero => intro s _ _ _ _ hf; omega
  | succ fuel ih =>
    intro s hd h1 h2 h3 hfuel
    obtain ⟨hf1, hf2, hf3, hf4⟩ := step_facts p s hB hT heR hw h3
    have hrec := step_body_records p s j hB hT hse heR hw h1 h3 hj
    obtain ⟨hb1, hb2, hb3, -⟩ := step_body_fields p s
    have hsh := head_shift_lt p s hB
    have hTB : p.num_reads_per_block ≤ p.num_thr * p.num_reads_per_block :=
      Nat.le_mul_of_pos_left _ (by omega)
    unfold step_loop
    rw [if_neg (by simp [hd])]
    by_cases hc : num_reads_cur_step p s.num_reads_done = 0
    · rw [if_pos hc]
      refine ⟨s.written, rfl, ?_⟩
      have := hf3 hc
      rw [show p.end_num - (s.num_reads_done + head_shift p s) = 0 by omega]
      simp [rec_range]
    · rw [if_neg hc]
      have hhit := tail_hit_eq p s.num_reads_done (num_reads_cur_step p s.num_reads_done)
        (by omega)
      by_cases hit : p.end_num ≤ s.num_reads_done + num_reads_cur_step p s.num_reads_done
      · have hdone : (step_body p s).done = true := by
          rw [hb3, hhit]; simp [hit]
        refine ⟨(step_body p s).written, step_loop_done p fuel _ hdone (by omega), ?_⟩
        rw [hrec, if_pos hit]
        congr 2
        omega
      · have hcur := hf4 (by omega)
        have hdone : (step_body p s).done = false := by
          rw [hb3, hhit]; simp [hit, hd]
        have e0 : (s.num_blocks_done + p.num_thr) * p.num_reads_per_block =
            s.num_reads_done + p.num_thr * p.num_reads_per_block := by
          rw [Nat.add_mul, ← h1]
        have e1 : s.num_blocks_done + p.num_thr ≤
            (s.num_blocks_done + p.num_thr) * p.num_reads_per_block :=
          Nat.le_mul_of_pos_right _ (by omega)
        have hnrd : (step_body p s).num_reads_done =
            s.num_reads_done + p.num_thr * p.num_reads_per_block := by
          rw [hb1, hcur]; unfold u32; exact Nat.mod_eq_of_lt (by omega)
        have hnbd : (step_body p s).num_blocks_done = s.num_blocks_done + p.num_thr := by
          rw [hb2]; unfold u32; exact Nat.mod_eq_of_lt (by omega)
        have hshift : head_shift p (step_body p s) = 0 := by
          unfold head_shift
          rw [hnbd, if_neg (by omega)]
        obtain ⟨calls, hc1, hc2⟩ := ih (step_body p s) hdone
          (by rw [hnrd, hnbd, e0]) (by rw [hnbd]; omega) (by rw [hnrd, hshift]; omega)
          (by rw [hnrd]; omega)
        refine ⟨calls, hc1, ?_⟩
        rw [hc2, hrec, if_neg hit, hcur, hnrd, hshift, List.append_assoc]
        congr 1
        have e2 : s.num_reads_done + p.num_thr * p.num_reads_per_block + 0 =
            s.num_reads_done + head_shift p s +
              (p.num_thr * p.num_reads_per_block - head_shift p s) := by omega
        rw [e2, rec_range_append]
        congr 1
        omega

theorem initial_state_facts (p : Params) (hs : p.start_num < 4294967296) :
    (initial_state p).done = false ∧
    (initial_state p).written = [] ∧
    (initial_state p).num_blocks_done = p.start_num / p.num_reads_per_block ∧
    (initial_state p).num_reads_done =
      p.start_num / p.num_reads_per_block * p.num_reads_per_block ∧
    (initial_state p).num_reads_done + head_shift p (initial_state p) = p.start_num := by
  have hq : p.start_num / p.num_reads_per_block ≤ p.start_num := Nat.div_le_self _ _
  have hm : p.start_num / p.num_reads_per_block * p.num_reads_per_block ≤ p.start_num :=
    Nat.div_mul_le_self _ _
  have e1 : u32 (p.start_num / p.num_reads_per_block) = p.start_num / p.num_reads_per_block := by
    unfold u32; exact Nat.mod_eq_of_lt (by omega)
  have e2 : u32 (p.start_num / p.num_reads_per_block * p.num_reads_per_block) =
      p.start_num / p.num_reads_per_block * p.num_reads_per_block := by
    unfold u32; exact Nat.mod_eq_of_lt (by omega)
  have hnbd : (initial_state p).num_blocks_done = p.start_num / p.num_reads_per_block := e1
  have hnrd : (initial_state p).num_reads_done =
      p.start_num / p.num_reads_per_block * p.num_reads_per_block := by
    show u32 (u32 _ * _) = _
    rw [e1, e2]
  refine ⟨rfl, rfl, hnbd, hnrd, ?_⟩
  unfold head_shift
  rw [hnbd, if_pos rfl, hnrd]
  exact Nat.div_add_mod' _ _

theorem decompress_writes_slices (p : Params) (j fuel : Nat)
    (hB : 1 ≤ p.num_reads_per_block) (hT : 1 ≤ p.num_thr)
    (hse : p.start_num ≤ p.end_num) (heR : p.end_num ≤ records_per_mate p)
    (hw : records_per_mate p +
      min (p.num_thr * p.num_reads_per_block) (records_per_mate p) < 4294967296)
    (hj : j = 0 ∨ (j = 1 ∧ p.paired_end = true))
    (hfuel : p.end_num + 2 ≤ fuel) :
    ∃ calls, decompress_writes p fuel = some calls ∧
      records_of_mate j calls =
        rec_range p.num_reads_per_block p.start_num (p.end_num - p.start_num) := by
  obtain ⟨i1, i2, i3, i4, i5⟩ := initial_state_facts p (by omega)
  obtain ⟨calls, hc1, hc2⟩ := step_loop_slices p j hB hT hse heR hw hj fuel (initial_state p)
    i1 (by rw [i4, i3]) (by rw [i3]) (by rw [i5]; exact hse) (by omega)
  refine ⟨calls, hc1, ?_⟩
  rw [hc2, i2, i5]
  simp [records_of_mate]

theorem rec_range_slice (B R s e : Nat) (h1 : s ≤ e) (h2 : e ≤ R) :
    ((rec_range B 0 R).drop s).take (e - s) = rec_range B s (e - s) := by
  have e1 : R = s + (R - s) := by omega
  have e2 : R - s = (e - s) + (R - e) := by omega
  rw [e1, ← rec_range_append, List.drop_append_of_le_length (by simp [rec_range_length]),
    List.drop_of_length_le (by simp [rec_range_length]), List.nil_append, Nat.zero_add,
    e2, ← rec_range_append, List.take_append_of_le_length (by simp [rec_range_length]),
    List.take_of_length_le (by simp [rec_range_length])]

/-- C1, as the specification states it, fails for paired-end data: with
`num_reads = 10` (five pairs), `B = 4`, one thread, `start = 0` and `end = 8`
(allowed by `end <= num_reads`) each mate receives the five records 0..4, not
the eight records 0..7. -/
theorem range_slicing_paired_end_short :
    (0 : Nat) ≤ 8 ∧ (8 : Nat) ≤ 10 ∧
    (decompress_writes ⟨10, 4, true, 1, 0, 8⟩ 12).map (records_of_mate 0) =
      some (rec_range 4 0 5) ∧
    (decompress_writes ⟨10, 4, true, 1, 0, 8⟩ 12).map (records_of_mate 1) =
      some (rec_range 4 0 5) ∧
    rec_range 4 0 5 ≠ rec_range 4 0 (8 - 0) ∧
    (rec_range 4 0 5).length ≠ 8 - 0 := by
  decide

/-- C1, amended: let `R` be the number of records of a mate (`num_reads` for
single-end data, `num_reads / 2` for paired-end data).  For every block size
`B >= 1`, thread count `T >= 1` and `0 <= start <= end <= R`, as long as the
32-bit counters cannot wrap (`R + min (T * B) R < 2^32`), the loop terminates
and the records handed to `write_fastq_block` for a mate, over all steps in
step order, are exactly the records with global indices `start .. end - 1` of
the full decode `[0, R)`, in that order; exactly `end - start` records. -/
theorem range_slicing (p : Params) (j fuel : Nat)
    (hB : 1 ≤ p.num_reads_per_block) (hT : 1 ≤ p.num_thr)
    (hse : p.start_num ≤ p.end_num) (heR : p.end_num ≤ records_per_mate p)
    (hw : records_per_mate p +
      min (p.num_thr * p.num_reads_per_block) (records_per_mate p) < 4294967296)
    (hj : j = 0 ∨ (j = 1 ∧ p.paired_end = true))
    (hfuel : records_per_mate p + 2 ≤ fuel) :
    ∃ calls full,
      decompress_writes p fuel = some calls ∧
      decompress_writes { p with start_num := 0, end_num := records_per_mate p } fuel =
        some full ∧
      records_of_mate j full = rec_range p.num_reads_per_block 0 (records_per_mate p) ∧
      records_of_mate j calls =
        ((records_of_mate j full).drop p.start_num).take (p.end_num - p.start_num) ∧
      records_of_mate j calls =
        rec_range p.num_reads_per_block p.start_num (p.end_num - p.start_num) ∧
      (records_of_mate j calls).length = p.end_num - p.start_num := by
  obtain ⟨calls, hc1, hc2⟩ :=
    decompress_writes_slices p j fuel hB hT hse heR hw hj (by omega)
  obtain ⟨full, hf1, hf2⟩ :=
    decompress_writes_slices { p with start_num := 0, end_num := records_per_mate p } j fuel
      hB hT (Nat.zero_le _) (Nat.le_refl _) hw hj hfuel
  refine ⟨calls, full, hc1, hf1, hf2, ?_, hc2, ?_⟩
  · rw [hf2, hc2]
    exact (rec_range_slice _ _ _ _ hse heR).symm
  · rw [hc2, rec_range_length]

theorem range_slicing_witness :
    ∃ calls full,
      decompress_writes ⟨20, 4, false, 2, 3, 9⟩ 22 = some calls ∧
      decompress_writes ⟨20, 4, false, 2, 0, 20⟩ 22 = some full ∧
      records_of_mate 0 full = rec_range 4 0 20 ∧
      records_of_mate 0 calls = ((records_of_mate 0 full).drop 3).take (9 - 3) ∧
      records_of_mate 0 calls = rec_range 4 3 (9 - 3) ∧
      (records_of_mate 0 calls).length = 9 - 3 :=
  range_slicing ⟨20, 4, false, 2, 3, 9⟩ 0 22 (by decide) (by decide) (by decide) (by decide)
    (by decide) (Or.inl rfl) (by decide)

/-! ## The step loop: thread count -/

theorem count_of_mate_append (j : Nat) (l1 l2 : List WriteCall) :
    count_of_mate j (l1 ++ l2) = count_of_mate j l1 + count_of_mate j l2 := by
  simp [count_of_mate, List.filter_append]

theorem step_loop_count_mono (p : Params) (j : Nat) :
    ∀ (fuel : Nat) (s : StepState) (calls : List WriteCall),
      step_loop p fuel s = some calls → count_of_mate j s.written ≤ count_of_mate j calls := by
  intro fuel
  induction fuel with
  | zero => intro s calls h; simp [step_loop] at h
  | succ fuel ih =>
    intro s calls h
    unfold step_loop at h
    split at h
    · simp only [Option.some.injEq] at h; rw [← h]
    · split at h
      · simp only [Option.some.injEq] at h; rw [← h]
      · have h1 := ih _ _ h
        rw [(step_body_fields p s).2.2.2, count_of_mate_append] at h1
        omega

/-- Thread-count invariance where the counters cannot wrap: for the same
`num_reads`, `B`, `paired_end`, `start <= end <= R` and two thread counts
`T1, T2 >= 1` with `R + min (T * B) R < 2^32` for both, the two decodes hand the
same sequence of records to `write_fastq_block` for each mate. -/
theorem parallel_invariance_without_wrap (p : Params) (T1 T2 j fuel : Nat)
    (hB : 1 ≤ p.num_reads_per_block) (hT1 : 1 ≤ T1) (hT2 : 1 ≤ T2)
    (hse : p.start_num ≤ p.end_num) (heR : p.end_num ≤ records_per_mate p)
    (hw1 : records_per_mate p +
      min (T1 * p.num_reads_per_block) (records_per_mate p) < 4294967296)
    (hw2 : records_per_mate p +
      min (T2 * p.num_reads_per_block) (records_per_mate p) < 4294967296)
    (hj : j = 0 ∨ (j = 1 ∧ p.paired_end = true))
    (hfuel : p.end_num + 2 ≤ fuel) :
    ∃ calls1 calls2,
      decompress_writes { p with num_thr := T1 } fuel = some calls1 ∧
      decompress_writes { p with num_thr := T2 } fuel = some calls2 ∧
      records_of_mate j calls1 = records_of_mate j calls2 := by
  obtain ⟨c1, h1, e1⟩ :=
    decompress_writes_slices { p with num_thr := T1 } j fuel hB hT1 hse heR hw1 hj hfuel
  obtain ⟨c2, h2, e2⟩ :=
    decompress_writes_slices { p with num_thr := T2 } j fuel hB hT2 hse heR hw2 hj hfuel
  exact ⟨c1, c2, h1, h2, by rw [e1, e2]⟩

/-- C2 fails on the code where a 32-bit counter wraps: in a single-end archive
of `2^32 - 1` reads with `B = 256000`, the range of ten reads starting at
record 4294656000 is decoded to exactly those ten records with one thread;
with two threads the sum `num_reads_done + num_reads_cur_step` wraps, the first
step hands 512000 records to `write_fastq_block` without finishing, and no
run ever ends with ten records. -/
theorem thread_count_changes_output :
    (decompress_writes (near_limit 1) 2).map (records_of_mate 0) =
      some (rec_range 256000 4294656000 10) ∧
    (decompress_writes (near_limit 1) 2).map (count_of_mate 0) = some 10 ∧
    (step_body (near_limit 2) (initial_state (near_limit 2))).done = false ∧
    count_of_mate 0 (step_body (near_limit 2) (initial_state (near_limit 2))).written =
      512000 ∧
    ∀ fuel, (decompress_writes (near_limit 2) fuel).map (count_of_mate 0) ≠ some 10 := by
  refine ⟨by decide, by decide, by decide, by decide, ?_⟩
  intro fuel
  cases fuel with
  | zero => simp [decompress_writes, step_loop]
  | succ n =>
    intro h
    have h0 : decompress_writes (near_limit 2) (n + 1) =
        step_loop (near_limit 2) n (step_body (near_limit 2) (initial_state (near_limit 2))) := by
      unfold decompress_writes
      rw [step_loop, if_neg (by decide), if_neg (by decide)]
    rw [h0] at h
    cases hs : step_loop (near_limit 2) n
        (step_body (near_limit 2) (initial_state (near_limit 2))) with
    | none => rw [hs] at h; simp at h
    | some calls =>
      rw [hs] at h
      have hm := step_loop_count_mono (near_limit 2) 0 n _ calls hs
      have hc : count_of_mate 0
          (step_body (near_limit 2) (initial_state (near_limit 2))).written = 512000 := by
        decide
      simp only [Option.map_some', Option.some.injEq] at h
      omega

/-! ## Flags outside `1`..`4`, the relative branch, singleton pairs -/

theorem decode_pos_2_relative (flag : Char) (v : BlockVars) (h1 : flag ≠ '1')
    (h4 : flag ≠ '4') :
    decode_pos_2 flag v =
      match read_u16 v.f_pos_pair with
      | .error e => .error e
      | .ok (bits, rest) =>
        match extract_char v.f_RC_pair with
        | .error e => .error e
        | .ok (RC_relative, rest_RC) =>
          .ok { v with pos_2 := add_u64_i16 v.pos_1 (to_i16 bits), f_pos_pair := rest,
                       RC_2 := if RC_relative = '0' then (if v.RC_1 = 'd' then 'r' else 'd')
                               else (if v.RC_1 = 'd' then 'd' else 'r'),
                       f_RC_pair := rest_RC } := by
  unfold decode_pos_2
  simp [h1, h4]

/-- C11, as the specification states it, fails: a single-end record with the
flag `7` is reconstructed from the reference like an aligned record; no error
is raised. -/
theorem flag_seven_is_decoded :
    '7' ∉ ['1', '2', '3', '4'] ∧
    reads_1 (decode_block dec_noise scenario_1_seq false true 1 flag_seven_block) =
      some [['A', 'C', 'G', 'T']] := by
  decide

/-- C11, amended: a flag outside `1`..`4` is not an error.  Mate 1 of such a
record is reconstructed exactly as for the flag `1` (aligned), and in
paired-end data mate 2 is reconstructed as an aligned mate encoded relative to
mate 1: its position and orientation come from the pair-position and
pair-orientation streams. -/
theorem flag_outside_is_decoded (t : NoiseTable) (seq : List Char) (preserve_order : Bool)
    (flag : Char) (len : Nat) (v : BlockVars)
    (h1 : flag ≠ '1') (h2 : flag ≠ '2') (h3 : flag ≠ '3') (h4 : flag ≠ '4') :
    decode_mate_1 t seq preserve_order flag len v =
      decode_mate_1 t seq preserve_order '1' len v ∧
    decode_mate_2 t seq flag len v =
      match read_u16 v.f_pos_pair with
      | .error e => .error e
      | .ok (bits, rest) =>
        match extract_char v.f_RC_pair with
        | .error e => .error e
        | .ok (RC_relative, rest_RC) =>
          match reconstruct t seq (add_u64_i16 v.pos_1 (to_i16 bits)) len
              (if RC_relative = '0' then (if v.RC_1 = 'd' then 'r' else 'd')
               else (if v.RC_1 = 'd' then 'd' else 'r')) v.f_noise v.f_noisepos with
          | .error e => .error e
          | .ok (read, f_noise, f_noisepos) =>
            .ok (read,
              { v with pos_2 := add_u64_i16 v.pos_1 (to_i16 bits), f_pos_pair := rest,
                       RC_2 := if RC_relative = '0' then (if v.RC_1 = 'd' then 'r' else 'd')
                               else (if v.RC_1 = 'd' then 'd' else 'r'),
                       f_RC_pair := rest_RC, f_noise := f_noise,
                       f_noisepos := f_noisepos }) := by
  constructor
  · unfold decode_mate_1
    simp [h2, h4]
  · unfold decode_mate_2
    rw [decode_pos_2_relative flag v h1 h4]
    simp only [h2, h3, decide_False, Bool.or_self, Bool.not_false, if_true]
    cases read_u16 v.f_pos_pair with
    | error e => rfl
    | ok x =>
      obtain ⟨bits, rest⟩ := x
      simp only
      cases extract_char v.f_RC_pair with
      | error e => rfl
      | ok y =>
        obtain ⟨c, rest_RC⟩ := y
        rfl

theorem flag_outside_is_decoded_witness :
    decode_mate_1 dec_noise scenario_1_seq true '7' 4 flag_seven_block =
      decode_mate_1 dec_noise scenario_1_seq true '1' 4 flag_seven_block :=
  (flag_outside_is_decoded dec_noise scenario_1_seq true '7' 4 flag_seven_block
    (by decide) (by decide) (by decide) (by decide)).1

theorem to_i16_range (bits : Nat) :
    -32768 ≤ to_i16 bits ∧ to_i16 bits < 32768 ∧
    (bits < 32768 → to_i16 bits = (bits : Int)) ∧
    (32768 ≤ bits → bits < 65536 → to_i16 bits = (bits : Int) - 65536) := by
  unfold to_i16 u16
  refine ⟨?_, ?_, ?_, ?_⟩
  · split <;> omega
  · split <;> omega
  · intro h; rw [Nat.mod_eq_of_lt (by omega), if_pos h]
  · intro h1 h2; rw [Nat.mod_eq_of_lt h2, if_neg (by omega)]

theorem add_u64_i16_cast (a : Nat) (d : Int) :
    ((add_u64_i16 a d : Nat) : Int) = ((a : Int) + d) % 18446744073709551616 := by
  unfold add_u64_i16
  exact Int.toNat_of_nonneg (Int.emod_nonneg _ (by decide))

/-- C16: whenever a paired-end record takes the relative branch (mate 2 not a
singleton and the flag neither `1` nor `4`), `pos_2` is `pos_1 + dpos` in 64-bit
arithmetic, `dpos` being the two bytes read from the pair-position stream taken
as a signed 16-bit number; and for `RC_1` in `d`, `r` the orientation `RC_2` is
the opposite of `RC_1` when the pair-orientation character is `'0'` and equals
`RC_1` otherwise.  Only the two pair streams are consumed. -/
theorem relative_mate_2 (flag : Char) (v : BlockVars) (bits : Nat) (rest : List Nat)
    (c : Char) (rest_RC : List Char)
    (h1 : flag ≠ '1') (h4 : flag ≠ '4')
    (hp : read_u16 v.f_pos_pair = .ok (bits, rest))
    (hr : extract_char v.f_RC_pair = .ok (c, rest_RC)) :
    ∃ v2, decode_pos_2 flag v = .ok v2 ∧
      (v2.pos_2 : Int) = ((v.pos_1 : Int) + to_i16 bits) % 18446744073709551616 ∧
      (-32768 ≤ to_i16 bits ∧ to_i16 bits < 32768 ∧
        (bits < 32768 → to_i16 bits = (bits : Int)) ∧
        (32768 ≤ bits → bits < 65536 → to_i16 bits = (bits : Int) - 65536)) ∧
      (c = '0' → (v.RC_1 = 'd' → v2.RC_2 = 'r') ∧ (v.RC_1 = 'r' → v2.RC_2 = 'd')) ∧
      (c ≠ '0' → (v.RC_1 = 'd' ∨ v.RC_1 = 'r') → v2.RC_2 = v.RC_1) ∧
      v2.f_pos_pair = rest ∧ v2.f_RC_pair = rest_RC ∧
      v2.f_pos = v.f_pos ∧ v2.f_RC = v.f_RC ∧ v2.pos_1 = v.pos_1 ∧ v2.RC_1 = v.RC_1 := by
  rw [decode_pos_2_relative flag v h1 h4, hp, hr]
  refine ⟨_, rfl, add_u64_i16_cast _ _, to_i16_range bits, ?_, ?_, rfl, rfl, rfl, rfl, rfl, rfl⟩
  · intro hc
    constructor
    · intro hd; simp [hc, hd]
    · intro hd; simp [hc, hd]
  · intro hc hd
    rcases hd with hd | hd <;> simp [hc, hd]

theorem relative_mate_2_witness :
    ∃ v2, decode_pos_2 '0' { relative_pair with pos_1 := 10, RC_1 := 'd' } = .ok v2 ∧
      v2.pos_2 = 13 ∧ v2.RC_2 = 'r' := by
  obtain ⟨v2, h, hpos, -, hflip, -, -⟩ :=
    relative_mate_2 '0' { relative_pair with pos_1 := 10, RC_1 := 'd' } 3 [] '0' []
      (by decide) (by decide) rfl rfl
  refine ⟨v2, h, ?_, (hflip rfl).1 rfl⟩
  have h3 : to_i16 3 = 3 := by decide
  rw [h3] at hpos
  have : ((10 : Nat) : Int) + 3 = 13 := by norm_num
  simp only [this] at hpos
  omega

/-- C13: for every paired-end record with flag `2` and lengths `length_1`,
`length_2`, mate 1 is exactly the next `length_1` characters of the unaligned
stream and mate 2 the `length_2` characters after them; the record consumes one
flag character and two `u16` lengths, and leaves the position, pair-position,
orientation, pair-orientation, noise and noise-position streams (and the
position state) exactly as they were. -/
theorem singleton_pair (t : NoiseTable) (seq : List Char) (preserve_order : Bool)
    (v : BlockVars) (fl m1 m2 ua : List Char) (l1 l2 : Nat) (rl : List Nat)
    (hl1 : l1 < 65536) (hl2 : l2 < 65536)
    (hflag : v.f_flag = '2' :: fl)
    (hlen : v.f_readlength = le_bytes 2 l1 ++ (le_bytes 2 l2 ++ rl))
    (hm1 : m1.length = l1) (hm2 : m2.length = l2)
    (hua : v.f_unaligned = m1 ++ (m2 ++ ua)) :
    decode_record t seq true preserve_order v =
      .ok (⟨'2', l1, m1, some l2, some m2⟩,
        { v with f_flag := fl, f_readlength := rl, f_unaligned := ua }) := by
  have e1 : u16 l1 = l1 := by unfold u16; omega
  have e2 : u16 l2 = l2 := by unfold u16; omega
  have hc1 : read_chars l1 (m1 ++ (m2 ++ ua)) = .ok (m1, m2 ++ ua) := by
    unfold read_chars
    rw [if_neg (by simp [hm1]), List.take_left' hm1, List.drop_left' hm1]
  have hc2 : read_chars l2 (m2 ++ ua) = .ok (m2, ua) := by
    unfold read_chars
    rw [if_neg (by simp [hm2]), List.take_left' hm2, List.drop_left' hm2]
  have hx : extract_char ('2' :: fl) = .ok ('2', fl) := by
    simp [extract_char, is_space]
  simp [decode_record, decode_mate_1, decode_mate_2, hflag, hx, hlen, read_u16_le_bytes,
    e1, e2, hua, hc1, hc2]

theorem singleton_pair_witness :
    decode_record dec_noise scenario_1_seq true false singleton_pair_block =
      .ok (⟨'2', 3, ['A', 'C', 'G'], some 2, some ['T', 'N']⟩,
        { singleton_pair_block with f_flag := ['1'], f_readlength := [9, 0],
                                    f_unaligned := ['A'] }) :=
  singleton_pair dec_noise scenario_1_seq false singleton_pair_block ['1'] ['A', 'C', 'G']
    ['T', 'N'] ['A'] 3 2 [9, 0] (by decide) (by decide) rfl rfl rfl rfl rfl

/-! ## Noise sites -/

theorem noise_loop_sites_spec (cs : List Char) :
    ∀ (ds : List Nat) (prev : Nat) (read : List Char) (rest : List Nat),
      cs.length = ds.length →
      (∀ s ∈ spec_sites prev ds, s < read.length) →
      (∀ r ∈ read, r ∈ ref_bases) →
      (∀ c ∈ cs, c ∈ noise_codes) →
      noise_loop_sites dec_noise cs prev read (ds.flatMap (le_bytes 2) ++ rest) =
        .ok (spec_sites prev ds) := by
  induction cs with
  | nil =>
    intro ds prev read rest hlen _ _ _
    have : ds = [] := by
      cases ds with
      | nil => rfl
      | cons d ds => simp at hlen
    subst this
    simp [noise_loop_sites, spec_sites]
  | cons c cs ih =>
    intro ds prev read rest hlen hsites hread hcodes
    cases ds with
    | nil => simp at hlen
    | cons d ds =>
      have hlen1 : cs.length = ds.length := by simpa using hlen
      have hs0 : u16 (prev + d) < read.length := hsites _ (by simp [spec_sites])
      have hsum : u16 (u16 d + prev) = u16 (prev + d) := by unfold u16; omega
      have hr : read[u16 (prev + d)]? = some (read[u16 (prev + d)]) :=
        List.getElem?_eq_getElem hs0
      have hrmem : read[u16 (prev + d)] ∈ ref_bases := hread _ (List.getElem_mem _)
      obtain ⟨b, hb1, -, -, hb4⟩ :=
        set_dec_noise_array_cell NoiseTable.fresh _ c hrmem (hcodes c (by simp))
      have hread1 : ∀ r ∈ read.set (u16 (prev + d)) b, r ∈ ref_bases := by
        intro r hr1
        rcases List.mem_or_eq_of_mem_set hr1 with h | h
        · exact hread r h
        · rw [h]; exact hb4
      have hsites1 : ∀ s ∈ spec_sites (u16 (prev + d)) ds,
          s < (read.set (u16 (prev + d)) b).length := by
        intro s hs
        rw [List.length_set]
        exact hsites s (by simp [spec_sites, hs])
      have hrec := ih ds (u16 (prev + d)) (read.set (u16 (prev + d)) b) rest hlen1 hsites1
        hread1 (fun x hx => hcodes x (by simp [hx]))
      have hb1' : dec_noise read[u16 (prev + d)] c = some b := hb1
      simp only [List.flatMap_cons, List.append_assoc, noise_loop_sites, read_u16_le_bytes,
        hsum, hr, spec_sites, hb1', hrec]

theorem spec_sites_bounds (ds : List Nat) :
    ∀ (prev : Nat), prev + ds.sum < 65536 →
      ∀ s ∈ spec_sites prev ds, prev ≤ s ∧ s ≤ prev + ds.sum := by
  induction ds with
  | nil => intro prev _ s hs; simp [spec_sites] at hs
  | cons d ds ih =>
    intro prev hsum s hs
    simp only [List.sum_cons] at hsum
    have e : u16 (prev + d) = prev + d := by unfold u16; omega
    simp only [spec_sites, e, List.mem_cons, List.sum_cons] at hs ⊢
    rcases hs with rfl | hs
    · omega
    · have := ih (prev + d) (by omega) s hs
      omega

theorem spec_sites_increasing (ds : List Nat) :
    ∀ (prev : Nat), prev + ds.sum < 65536 → (∀ d ∈ ds, 1 ≤ d) →
      (spec_sites prev ds).Pairwise (· < ·) ∧ ∀ s ∈ spec_sites prev ds, prev < s := by
  induction ds with
  | nil => intro prev _ _; simp [spec_sites]
  | cons d ds ih =>
    intro prev hsum hpos
    simp only [List.sum_cons] at hsum
    have hd : 1 ≤ d := hpos d (by simp)
    have e : u16 (prev + d) = prev + d := by unfold u16; omega
    obtain ⟨h1, h2⟩ := ih (prev + d) (by omega) (fun x hx => hpos x (by simp [hx]))
    simp only [spec_sites, e, List.pairwise_cons, List.mem_cons]
    refine ⟨⟨fun s hs => h2 s hs, h1⟩, ?_⟩
    intro s hs
    rcases hs with rfl | hs
    · omega
    · have := h2 s hs
      omega

/-- C12, as the specification states it, fails: the deltas `[2, 0]` give the
sites `[2, 2]` and both substitutions are applied to index 2 (the read `AAAAA`
comes back unchanged), and the deltas `[3, 65535]` give the sites `[3, 2]`
because the 16-bit sum wraps. -/
theorem noise_sites_repeat_or_wrap :
    sites_of (noise_loop_sites dec_noise ['0', '0'] 0 ['A', 'A', 'A', 'A', 'A']
      ([2, 0].flatMap (le_bytes 2))) = some [2, 2] ∧
    read_of (reconstruct dec_noise ['A', 'A', 'A', 'A', 'A'] 0 5 'd' ['0', '0', '\n']
      ([2, 0].flatMap (le_bytes 2))) = some ['A', 'A', 'A', 'A', 'A'] ∧
    sites_of (noise_loop_sites dec_noise ['0', '0'] 0 ['A', 'A', 'A', 'A', 'A']
      ([3, 65535].flatMap (le_bytes 2))) = some [3, 2] ∧
    ¬ ([2, 2] : List Nat).Pairwise (· < ·) ∧ ¬ ([3, 2] : List Nat).Pairwise (· < ·) := by
  decide

/-- C12, amended: the decoded sites are the running sums of the deltas taken
modulo `2^16`.  They are strictly increasing when every delta after the first
is at least 1 and the deltas add up to less than `2^16`; for a noise line over
the codes `'0'..'3'` on a read over `A, C, G, T, N` whose deltas add up to less
than the read length, the loop visits exactly these sites. -/
theorem noise_sites_increasing (cs : List Char) (d0 : Nat) (ds : List Nat)
    (read : List Char) (rest : List Nat)
    (hlen : cs.length = (d0 :: ds).length)
    (hsum : (d0 :: ds).sum < read.length) (hwrap : (d0 :: ds).sum < 65536)
    (hpos : ∀ d ∈ ds, 1 ≤ d)
    (hread : ∀ r ∈ read, r ∈ ref_bases) (hcodes : ∀ c ∈ cs, c ∈ noise_codes) :
    noise_loop_sites dec_noise cs 0 read ((d0 :: ds).flatMap (le_bytes 2) ++ rest) =
      .ok (spec_sites 0 (d0 :: ds)) ∧
    (spec_sites 0 (d0 :: ds)).Pairwise (· < ·) := by
  have hb := spec_sites_bounds (d0 :: ds) 0 (by omega)
  refine ⟨noise_loop_sites_spec cs (d0 :: ds) 0 read rest hlen
    (fun s hs => by have := hb s hs; omega) hread hcodes, ?_⟩
  simp only [List.sum_cons] at hwrap
  have e : u16 (0 + d0) = d0 := by unfold u16; omega
  obtain ⟨h1, h2⟩ := spec_sites_increasing ds d0 (by omega) hpos
  simp only [spec_sites, e, List.pairwise_cons]
  exact ⟨fun s hs => h2 s hs, h1⟩

theorem noise_sites_increasing_witness :
    noise_loop_sites dec_noise ['0', '1'] 0 ['A', 'C', 'G', 'T', 'A']
        ([0, 3].flatMap (le_bytes 2) ++ []) = .ok (spec_sites 0 [0, 3]) ∧
    (spec_sites 0 [0, 3]).Pairwise (· < ·) :=
  noise_sites_increasing ['0', '1'] 0 [3] ['A', 'C', 'G', 'T', 'A'] [] rfl (by decide)
    (by decide) (by decide) (by decide) (by decide)

/-! ## Worker slices and shard assignment -/

theorem num_reads_thr_eq (p : Params) (cur tid : Nat) (h32 : cur < 4294967296) :
    num_reads_thr p cur tid =
      min cur ((tid + 1) * p.num_reads_per_block) - tid * p.num_reads_per_block := by
  unfold num_reads_thr u32
  apply Nat.mod_eq_of_lt
  have : min cur ((tid + 1) * p.num_reads_per_block) ≤ cur := Nat.min_le_left _ _
  omega

/-- C15: for every block size `B >= 1`, thread count `T >= 1` and
`num_reads_cur_step <= T * B` (a `uint32_t`), the index ranges
`[tid * B, tid * B + n_tid)` of the active workers (those with
`tid * B < num_reads_cur_step`) each have `1 <= n_tid <= B`, are pairwise
disjoint, and their union is exactly `[0, num_reads_cur_step)`.  (`T >= 1` is
not needed: with no thread there is no cell to cover.) -/
theorem worker_slices_partition (p : Params) (cur : Nat)
    (hB : 1 ≤ p.num_reads_per_block)
    (hcur : cur ≤ p.num_thr * p.num_reads_per_block) (h32 : cur < 4294967296) :
    (∀ tid, tid < p.num_thr → tid * p.num_reads_per_block < cur →
      1 ≤ num_reads_thr p cur tid ∧ num_reads_thr p cur tid ≤ p.num_reads_per_block ∧
      tid * p.num_reads_per_block + num_reads_thr p cur tid ≤ cur) ∧
    (∀ tid1 tid2, tid1 < tid2 → tid2 < p.num_thr →
      tid1 * p.num_reads_per_block + num_reads_thr p cur tid1 ≤
        tid2 * p.num_reads_per_block) ∧
    (∀ i, i < cur ↔ ∃ tid, tid < p.num_thr ∧ tid * p.num_reads_per_block < cur ∧
      tid * p.num_reads_per_block ≤ i ∧
      i < tid * p.num_reads_per_block + num_reads_thr p cur tid) := by
  have hsucc : ∀ tid, (tid + 1) * p.num_reads_per_block =
      tid * p.num_reads_per_block + p.num_reads_per_block := by
    intro tid; rw [Nat.add_mul, Nat.one_mul]
  refine ⟨?_, ?_, ?_⟩
  · intro tid _ hact
    rw [num_reads_thr_eq p cur tid h32, hsucc]
    omega
  · intro tid1 tid2 h12 _
    rw [num_reads_thr_eq p cur tid1 h32, hsucc]
    have : (tid1 + 1) * p.num_reads_per_block ≤ tid2 * p.num_reads_per_block :=
      Nat.mul_le_mul_right _ (by omega)
    rw [hsucc] at this
    omega
  · intro i
    constructor
    · intro hi
      have hpos : 0 < p.num_reads_per_block := by omega
      have hlo : i / p.num_reads_per_block * p.num_reads_per_block ≤ i :=
        Nat.div_mul_le_self _ _
      have hhi : i < (i / p.num_reads_per_block + 1) * p.num_reads_per_block := by
        rw [Nat.mul_comm]; exact Nat.lt_mul_div_succ i hpos
      refine ⟨i / p.num_reads_per_block, ?_, by omega, hlo, ?_⟩
      · exact Nat.div_lt_of_lt_mul (by rw [Nat.mul_comm]; omega)
      · rw [num_reads_thr_eq p cur _ h32]
        rw [hsucc] at hhi ⊢
        omega
    · rintro ⟨tid, _, hact, _, hlt⟩
      rw [num_reads_thr_eq p cur tid h32, hsucc] at hlt
      omega

theorem worker_slices_partition_witness :
    (1 ≤ num_reads_thr ⟨20, 4, false, 3, 0, 20⟩ 10 2 ∧
      num_reads_thr ⟨20, 4, false, 3, 0, 20⟩ 10 2 ≤ 4 ∧
      2 * 4 + num_reads_thr ⟨20, 4, false, 3, 0, 20⟩ 10 2 ≤ 10) ∧
    (9 < 10 ↔ ∃ tid, tid < 3 ∧ tid * 4 < 10 ∧ tid * 4 ≤ 9 ∧
      9 < tid * 4 + num_reads_thr ⟨20, 4, false, 3, 0, 20⟩ 10 tid) :=
  ⟨(worker_slices_partition ⟨20, 4, false, 3, 0, 20⟩ 10 (by decide) (by decide)
      (by decide)).1 2 (by decide) (by decide),
    (worker_slices_partition ⟨20, 4, false, 3, 0, 20⟩ 10 (by decide) (by decide)
      (by decide)).2.2 9⟩

theorem shards_of_thread_eq (K T tid : Nat) (hov : T * K < 2147483648) (htid : tid < T) :
    shards_of_thread K T tid =
      .ok (List.range' (tid * K / T) ((tid + 1) * K / T - tid * K / T)) := by
  have h1 : (tid + 1) * K ≤ T * K := Nat.mul_le_mul_right _ (by omega)
  have h2 : tid * K ≤ (tid + 1) * K := Nat.mul_le_mul_right _ (by omega)
  unfold shards_of_thread int_mul
  rw [if_pos (by omega), if_pos (by omega)]

theorem shard_bounds_mono (K T a b : Nat) (h : a ≤ b) : a * K / T ≤ b * K / T :=
  Nat.div_le_div_right (Nat.mul_le_mul_right _ h)

theorem shard_lists_concat (K T : Nat) (hov : T * K < 2147483648) :
    ∀ t, t ≤ T → (List.range t).flatMap (shard_list K T) = List.range (t * K / T) := by
  intro t
  induction t with
  | zero => intro _; simp
  | succ t ih =>
    intro ht
    have hl : shard_list K T t = List.range' (t * K / T) ((t + 1) * K / T - t * K / T) := by
      unfold shard_list
      rw [shards_of_thread_eq K T t hov (by omega)]
    have hm := shard_bounds_mono K T t (t + 1) (by omega)
    rw [List.range_succ, List.flatMap_append, ih (by omega), List.flatMap_singleton, hl,
      List.range_eq_range', List.range_eq_range']
    have := List.range'_append 0 (t * K / T) ((t + 1) * K / T - t * K / T) 1
    rw [Nat.one_mul, Nat.zero_add] at this
    rw [this]
    congr 1
    omega

/-- C17: for every shard count `K >= 0` and worker count `T >= 1` whose `int`
products do not overflow (`T * K < 2^31`), thread `tid` unpacks the shards
`[tid * K div T, (tid + 1) * K div T)`; these ranges, for `tid = 0 .. T - 1`,
are pairwise disjoint, follow one another, and their union is `[0, K)`, so
every shard is unpacked by exactly one worker. -/
theorem shard_assignment_partition (K T : Nat) (hT : 1 ≤ T) (hov : T * K < 2147483648) :
    (∀ tid, tid < T → shards_of_thread K T tid =
      .ok (List.range' (tid * K / T) ((tid + 1) * K / T - tid * K / T))) ∧
    (List.range T).flatMap (shard_list K T) = List.range K ∧
    (∀ tid1 tid2, tid1 < tid2 → (tid1 + 1) * K / T ≤ tid2 * K / T) ∧
    (∀ e, e < K → ∃ tid, (tid < T ∧ tid * K / T ≤ e ∧ e < (tid + 1) * K / T) ∧
      ∀ tid2, tid2 < T ∧ tid2 * K / T ≤ e ∧ e < (tid2 + 1) * K / T → tid2 = tid) := by
  have hTK : T * K / T = K := Nat.mul_div_cancel_left K (by omega)
  have hex : ∀ t, t ≤ T → ∀ e, e < t * K / T →
      ∃ tid, tid < t ∧ tid * K / T ≤ e ∧ e < (tid + 1) * K / T := by
    intro t
    induction t with
    | zero => intro _ e he; simp at he
    | succ t ih =>
      intro ht e he
      by_cases h : e < t * K / T
      · obtain ⟨tid, h1, h2, h3⟩ := ih (by omega) e h
        exact ⟨tid, by omega, h2, h3⟩
      · exact ⟨t, by omega, by omega, he⟩
  refine ⟨fun tid htid => shards_of_thread_eq K T tid hov htid, ?_, ?_, ?_⟩
  · rw [shard_lists_concat K T hov T (Nat.le_refl _), hTK]
  · intro tid1 tid2 h
    exact shard_bounds_mono K T _ _ (by omega)
  · intro e he
    obtain ⟨tid, h1, h2, h3⟩ := hex T (Nat.le_refl _) e (by rw [hTK]; exact he)
    refine ⟨tid, ⟨h1, h2, h3⟩, ?_⟩
    rintro tid2 ⟨_, g2, g3⟩
    by_contra hne
    rcases Nat.lt_or_gt_of_ne hne with hlt | hgt
    · have := shard_bounds_mono K T (tid2 + 1) tid (by omega)
      omega
    · have := shard_bounds_mono K T (tid + 1) tid2 (by omega)
      omega

theorem shard_assignment_partition_witness :
    (List.range 4).flatMap (shard_list 3 4) = List.range 3 ∧
    (List.range 3).flatMap (shard_list 8 3) = List.range 8 :=
  ⟨(shard_assignment_partition 3 4 (by decide) (by decide)).2.1,
    (shard_assignment_partition 8 3 (by decide) (by decide)).2.1⟩

/-! ## Synthesized identifiers -/

theorem noise_loop_sites_defined (t : NoiseTable) (cs : List Char) :
    ∀ (prev : Nat) (read : List Char) (f_noisepos : List Nat),
      (∃ sites, noise_loop_sites t cs prev read f_noisepos = .ok sites) ↔
        ∃ x, noise_loop t cs prev read f_noisepos = .ok x := by
  induction cs with
  | nil => intro prev read f; simp [noise_loop_sites, noise_loop]
  | cons c cs ih =>
    intro prev read f
    unfold noise_loop_sites noise_loop
    cases read_u16 f with
    | error e => simp
    | ok y =>
      obtain ⟨np, rest⟩ := y
      simp only
      cases read[u16 (np + prev)]? with
      | none => simp
      | some r =>
        simp only
        cases t r c with
        | none => simp
        | some b =>
          simp only
          rw [← ih (u16 (np + prev)) (read.set (u16 (np + prev)) b) rest]
          cases noise_loop_sites t cs (u16 (np + prev)) (read.set (u16 (np + prev)) b) rest with
          | error e => simp
          | ok s => simp

end Spring
